import Mathlib

/-!
Verification of the fractalmake repository against its specification.

This file shallowly embeds the parts of the C++ source that the claims
C1-C10 are about:

* the domain-decomposition engine (`src/fractals.hpp`, `src/fractals.cpp`):
  `decompose_domain`, the global work cursor, the band-filling loop and
  `make_fractal`;
* the escape-time evaluators (`src/options.hpp`): `ztestfun`, `ctestfun`;
* the spline interval search (`src/spline.hpp`): `get_element_position`;
* the formula parser (`src/function_parser.hpp`): the recursive-descent
  parser, the function-name dispatcher and numeric-literal extraction.

Machine `unsigned` arithmetic is modelled as `Nat` with explicit `% 2 ^ 32`
where the source performs wrapping arithmetic.  Floating-point values never
influence any claim below; where the source manipulates complex numbers the
embedding is parametric in the point type and in the escape test, and the
numeric-literal reader keeps the consumed text instead of decoding a float
(no claim depends on the decoded value).
-/

namespace Fractalmake

/-! ## Domain decomposition (src/fractals.hpp, src/fractals.cpp) -/

/-- `constexpr unsigned points_per_thread = 100000;` -/
def points_per_thread : Nat := 100000

/-- The modulus of C++ 32-bit `unsigned` arithmetic. -/
def U32 : Nat := 2 ^ 32

/-- The integer skeleton of `Domain<cmplx>`: the grid dimensions `nacross`
(columns) and `nup` (rows).  The complex corner fields of the source struct
only feed the floating-point coordinates of band targets; no claim depends
on them, so they are omitted from the embedding. -/
structure DomainDims where
  nacross : Nat
  nup : Nat
deriving DecidableEq, Repr

/-- The band size added to the cursor in `decompose_domain`:
`points_per_thread / dom.nacross + 1` (C++ integer division = floor). -/
def chunk (nacross : Nat) : Nat := points_per_thread / nacross + 1

/-- `decompose_domain` (src/fractals.hpp lines 67-91), restricted to its
effect on the cursor and the claimed row range.  `none` models returning
`true` ("done"); otherwise the claimed band `(first_row, last_row)` and the
new cursor value are returned.  The update `dom_start += ...` is `unsigned`
arithmetic, hence the `% U32`. -/
def decompose_domain (dom : DomainDims) (cursor : Nat) :
    Option ((Nat × Nat) × Nat) :=
  if dom.nup ≤ cursor then none
  else
    let c' := (cursor + chunk dom.nacross) % U32
    let last := if c' < dom.nup then c' else dom.nup
    some ((cursor, last), c')

/-- The sequence of bands issued by repeated (mutex-serialised) calls to
`decompose_domain` starting from `cursor`, with explicit fuel (the loop in
`check_points_thread` runs until `decompose_domain` reports done). -/
def bandSeq (dom : DomainDims) : Nat → Nat → List (Nat × Nat)
  | 0, _ => []
  | fuel + 1, c =>
    match decompose_domain dom c with
    | none => []
    | some (b, c') => b :: bandSeq dom fuel c'

/-- The cursor value left behind after the band-issuing loop. -/
def finalCursor (dom : DomainDims) : Nat → Nat → Nat
  | 0, c => c
  | fuel + 1, c =>
    match decompose_domain dom c with
    | none => c
    | some (_, c') => finalCursor dom fuel c'

/-- The unguarded cursor iteration `dom_start += chunk` (mod 2^32); it
coincides with the cursor sequence of the real loop as long as every
intermediate value is below `dom.nup`. -/
def cursorIter (dom : DomainDims) (c : Nat) : Nat → Nat
  | 0 => c
  | k + 1 => (cursorIter dom c k + chunk dom.nacross) % U32

/-- Unsigned subtraction mod 2^32 (`last_row - first_row` on `unsigned`),
for operands below `U32`. -/
def usub (a b : Nat) : Nat := (U32 + a - b) % U32

/-- The grid of values: cell index (row-major) to stored value.  A fresh
`Fractal` zero-initialises it (`values.resize(...)`). -/
def Grid : Type := Nat → Nat

/-- The all-zero grid of a freshly constructed `Fractal`. -/
def grid0 : Grid := fun _ => 0

/-- One execution of `chk(this_dom, my_slice)` for a claimed band `b`.
The slice starts at `first_row * nacross` (`unsigned` product) and the
checker fills `target.nup * nacross = (last_row - first_row) * nacross`
cells.  `chk b i` is the value the (arbitrary, deterministic) checker
writes at slice-relative index `i` for band `b`. -/
def fillBand (nacross : Nat) (chk : Nat × Nat → Nat → Nat)
    (g : Grid) (b : Nat × Nat) : Grid :=
  fun p =>
    let ofs := b.1 * nacross % U32
    let cnt := usub b.2 b.1 * nacross
    if ofs ≤ p ∧ p < ofs + cnt then chk b (p - ofs) else g p

/-- Applying the per-band fills in a given order. -/
def runBands (nacross : Nat) (chk : Nat × Nat → Nat → Nat)
    (g : Grid) (l : List (Nat × Nat)) : Grid :=
  l.foldl (fillBand nacross chk) g

/-- The band list of one complete computation started at `cursor`;
`dom.nup` steps of fuel always suffice (each issued band advances the
cursor by `chunk ≥ 1` until it reaches `dom.nup`, in the absence of
wraparound). -/
def bandListFrom (dom : DomainDims) (cursor : Nat) : List (Nat × Nat) :=
  bandSeq dom dom.nup cursor

/-- `make_fractal` (src/fractals.hpp lines 132-151) as a transformer of the
process-global cursor: it allocates a zero grid, runs the band loop from the
*current* global cursor value (the source never resets `domain_start`), and
returns the populated grid together with the cursor value left behind.
With `num_threads = 0` no worker is spawned and the grid stays zero. -/
def make_fractal (dom : DomainDims) (chk : Nat × Nat → Nat → Nat)
    (numThreads : Nat) (cursor : Nat) : Grid × Nat :=
  if numThreads = 0 then (grid0, cursor)
  else (runBands dom.nacross chk grid0 (bandListFrom dom cursor),
        finalCursor dom dom.nup cursor)

/-- `make_fractal` with an explicit completion order for the band fills:
the mutex serialises the *claims* (so the set of bands is the cursor-driven
sequence `bandListFrom`), but the unlocked fills of distinct workers may
land in the grid in any interleaving; `order` is that interleaving, a
permutation of the claimed bands.  Starts from a fresh cursor 0. -/
def make_fractal_ord (dom : DomainDims) (chk : Nat × Nat → Nat → Nat)
    (numThreads : Nat) (order : List (Nat × Nat)) : Grid :=
  if numThreads = 0 then grid0
  else runBands dom.nacross chk grid0 order

/-! ## Escape-time evaluators (src/options.hpp lines 243-291)

The evaluators are class templates over a complex type; the loop structure
is independent of the numeric semantics, so the embedding is parametric in
the point type `C`, the escape test `esc` (modelling `abs(test) < escape`)
and the compiled formula `f` (two complex arguments, as in the source). -/

/-- The body of the `while (abs(test) < escape && iters < max_iters)` loop:
`fuel` is `max_iters - iters` (the loop condition `iters < max_iters` is
exactly `fuel > 0`); returns the final value of `iters`. -/
def loopAux {C : Type} (esc : C → Bool) (step : C → C) :
    Nat → Nat → C → Nat
  | 0, iters, _ => iters
  | fuel + 1, iters, t =>
    if esc t then loopAux esc step fuel (iters + 1) (step t) else iters

/-- `ztestfun::operator()` (src/options.hpp lines 256-265): the per-point
input `z` is the initial iterate, the configured `constant` is passed as
the second argument of `func`; returns `iters == max_iters ? 0 : iters`. -/
def ztestfun {C : Type} (esc : C → Bool) (f : C → C → C) (constant : C)
    (max_iters : Nat) (z : C) : Nat :=
  let iters := loopAux esc (fun t => f t constant) max_iters 0 z
  if iters = max_iters then 0 else iters

/-- `ctestfun::operator()` (src/options.hpp lines 281-290): the per-point
input `c` is passed as the second argument of `func`, the iterate starts at
the configured `constant`; returns `iters == max_iters ? 0 : iters`. -/
def ctestfun {C : Type} (esc : C → Bool) (f : C → C → C) (constant : C)
    (max_iters : Nat) (c : C) : Nat :=
  let iters := loopAux esc (fun t => f t c) max_iters 0 constant
  if iters = max_iters then 0 else iters

/-- `n`-fold application of a step function, front-first:
`applyN step n t` is the iterate after `n` loop iterations from `t`. -/
def applyN {C : Type} (step : C → C) : Nat → C → C
  | 0, t => t
  | n + 1, t => applyN step n (step t)

/-! ## Spline interval search (src/spline.hpp lines 87-102, 131-138) -/

/-- `Spline::get_element_position` on the knot vector `xs`, with iterators
replaced by indices into `xs` and an explicit fuel (the recursion halves
`e - start`, so `xs.length` steps always suffice).  `*start > x` is the
comparison `xs[start] > x`; knot values are modelled as rationals (the
search only compares values, never computes with them). -/
def get_element_position (xs : List ℚ) (x : ℚ) :
    Nat → Nat → Nat → Nat
  | 0, start, _ => start
  | fuel + 1, start, e =>
    if e = start then start
    else if e - start = 1 then (if xs.getD start 0 > x then start else e)
    else
      let middle := start + (e - start) / 2
      if xs.getD middle 0 > x then get_element_position xs x fuel start middle
      else get_element_position xs x fuel middle e

/-- The call made by `Spline::operator()`:
`get_element_position(x, xs_.begin(), xs_.end())`. -/
def splineFind (xs : List ℚ) (x : ℚ) : Nat :=
  get_element_position xs x xs.length 0 xs.length

/-! ## Formula parser (src/function_parser.hpp)

The parser reads from an `istringstream`.  The stream is modelled as the
remaining character list plus a fail flag: `get()` at end of input returns
EOF and sets `failbit` (sticky; all subsequent `peek`/`get` report EOF),
and a failed numeric extraction (`stream >> x`) also sets `failbit`.
Parse failures (`throw ParseException`) are `Except.error ()`.

The source builds `std::function` closures; the embedding returns the
corresponding syntax tree `FExpr` instead (each lambda construction in the
source corresponds to exactly one constructor below).  A numeric literal
carries the text consumed by `stream >> x`; no claim depends on the decoded
floating-point value. -/

/-- The remaining input of the `istringstream`, plus its fail state. -/
structure PStream where
  rest : List Char
  failed : Bool
deriving DecidableEq, Repr

/-- `stream.peek()`: EOF on a failed stream or at end of input. -/
def PStream.peek (s : PStream) : Option Char :=
  if s.failed then none else s.rest.head?

/-- `stream.get()`: extracts one character; at end of input returns EOF and
sets `failbit`; on an already-failed stream does nothing. -/
def PStream.get (s : PStream) : Option Char × PStream :=
  if s.failed then (none, s)
  else
    match s.rest with
    | [] => (none, ⟨[], true⟩)
    | c :: r => (some c, ⟨r, false⟩)

/-- `skip_whitespace` (src/function_parser.hpp lines 18-23): consumes
leading spaces and tabs; a failed stream peeks EOF and the loop exits. -/
def skip_whitespace (s : PStream) : PStream :=
  if s.failed then s
  else ⟨s.rest.dropWhile (fun c => c == ' ' || c == '\t'), false⟩

/-- The `functions` enum of `FunctionParser`. -/
inductive functions where
  | ABS | EXP | SIN | COS | TAN | ASIN | ACOS | ATAN | SQRT | REAL | IMAG
  | CONSTANT
deriving DecidableEq, Repr

/-- Syntax trees of compiled formulas; each constructor corresponds to one
closure-building site of the source (`constant_fn` keeps the literal text
consumed by `stream >> x`; `numFail` is the failed extraction, which yields
the value 0 under C++11 semantics and leaves the stream failed). -/
inductive FExpr where
  | num : List Char → FExpr
  | numFail : FExpr
  | iunit : FExpr
  | varZ : FExpr
  | varC : FExpr
  | neg : FExpr → FExpr
  | add : FExpr → FExpr → FExpr
  | sub : FExpr → FExpr → FExpr
  | mul : FExpr → FExpr → FExpr
  | div : FExpr → FExpr → FExpr
  | pow : FExpr → FExpr → FExpr
  | call : functions → FExpr → FExpr
deriving DecidableEq, Repr

/-- `FunctionParser::get_function_name` (src/function_parser.hpp lines
238-288).  Note that after dispatching on the first one or two characters
it consumes the remaining characters of the expected name *blindly*, and
that a leading `c` not followed by `o` is the bare variable `CONSTANT`. -/
def get_function_name (s0 : PStream) : Except Unit (functions × PStream) :=
  let p1 := s0.get
  if p1.1 = some 'a' then
    let p2 := p1.2.get
    if p2.1 = some 'b' then
      let p3 := p2.2.get
      .ok (functions.ABS, p3.2)
    else if p2.1 = some 's' then
      let p3 := p2.2.get
      let p4 := p3.2.get
      .ok (functions.ASIN, p4.2)
    else if p2.1 = some 'c' then
      let p3 := p2.2.get
      let p4 := p3.2.get
      .ok (functions.ACOS, p4.2)
    else if p2.1 = some 't' then
      let p3 := p2.2.get
      let p4 := p3.2.get
      .ok (functions.ATAN, p4.2)
    else .error ()
  else if p1.1 = some 'e' then
    let p2 := p1.2.get
    let p3 := p2.2.get
    .ok (functions.EXP, p3.2)
  else if p1.1 = some 's' then
    let p2 := p1.2.get
    if p2.1 = some 'i' then
      let p3 := p2.2.get
      .ok (functions.SIN, p3.2)
    else
      let p3 := p2.2.get
      let p4 := p3.2.get
      .ok (functions.SQRT, p4.2)
  else if p1.1 = some 'c' then
    if p1.2.peek = some 'o' then
      let p2 := p1.2.get
      let p3 := p2.2.get
      .ok (functions.COS, p3.2)
    else .ok (functions.CONSTANT, p1.2)
  else if p1.1 = some 't' then
    let p2 := p1.2.get
    let p3 := p2.2.get
    .ok (functions.TAN, p3.2)
  else if p1.1 = some 'r' then
    let p2 := p1.2.get
    let p3 := p2.2.get
    let p4 := p3.2.get
    .ok (functions.REAL, p4.2)
  else if p1.1 = some 'i' then
    let p2 := p1.2.get
    let p3 := p2.2.get
    let p4 := p3.2.get
    .ok (functions.IMAG, p4.2)
  else .error ()

/-- Longest run of decimal digits (one accumulation phase of `num_get`). -/
def spanDigits (l : List Char) : List Char × List Char :=
  (l.takeWhile Char.isDigit, l.dropWhile Char.isDigit)

/-- The mantissa phase of `num_get` float extraction: digits, then at most
one decimal point followed by more digits. -/
def scanMantissa (l : List Char) : List Char × List Char :=
  let p := spanDigits l
  match p.2 with
  | [] => p
  | c :: r2 =>
    if c = '.' then
      let q := spanDigits r2
      (p.1 ++ '.' :: q.1, q.2)
    else p

/-- The exponent phase of `num_get` float extraction: an `e`/`E`, an
optional sign, then digits (all consumed greedily even if no digit
follows, as the stage-2 accumulation of `num_get` does). -/
def scanExponent (l : List Char) : List Char × List Char :=
  match l with
  | [] => ([], [])
  | c :: r =>
    if c = 'e' ∨ c = 'E' then
      match r with
      | [] => ([c], [])
      | s :: r2 =>
        if s = '+' ∨ s = '-' then
          let q := spanDigits r2
          (c :: s :: q.1, q.2)
        else
          let q := spanDigits r
          (c :: q.1, q.2)
    else ([], c :: r)

/-- `FunctionParser::parse_number` (src/function_parser.hpp lines 230-236):
`stream >> x` extracts the longest prefix matching the float format; if the
accumulated text cannot be converted (no mantissa digit, or an exponent
marker without digits) the extraction fails, `x` is set to 0 (C++11) and
the stream's failbit is set.  The parse path only reaches this function
when the next character is a digit or `.`, so no sign phase is needed. -/
def parse_number (s : PStream) : FExpr × PStream :=
  if s.failed then (FExpr.numFail, s)
  else
    let m := scanMantissa s.rest
    if m.1.any Char.isDigit then
      let e := scanExponent m.2
      match e.1 with
      | [] => (FExpr.num m.1, ⟨m.2, false⟩)
      | _ =>
        if e.1.any Char.isDigit then (FExpr.num (m.1 ++ e.1), ⟨e.2, false⟩)
        else (FExpr.numFail, ⟨e.2, true⟩)
    else (FExpr.numFail, ⟨m.2, true⟩)

mutual

/-- `FunctionParser::parse_expr` (lines 96-117): a level-0 term followed by
the `+`/`-` loop.  All parsers carry fuel; with adequate fuel the fuel-zero
branch is never taken. -/
def parse_expr : Nat → PStream → Except Unit (FExpr × PStream)
  | 0, _ => .error ()
  | fuel + 1, s =>
    match parse_lvl0_term fuel s with
    | .error e => .error e
    | .ok (f, s1) => parse_expr_loop fuel f s1

/-- The `while (peek == '+' || peek == '-')` loop of `parse_expr`
(with the preceding `skip_whitespace`). -/
def parse_expr_loop : Nat → FExpr → PStream → Except Unit (FExpr × PStream)
  | 0, _, _ => .error ()
  | fuel + 1, f, s0 =>
    let s := skip_whitespace s0
    if s.peek = some '+' then
      match parse_lvl0_term fuel (s.get).2 with
      | .error e => .error e
      | .ok (g, s2) => parse_expr_loop fuel (FExpr.add f g) s2
    else if s.peek = some '-' then
      match parse_lvl0_term fuel (s.get).2 with
      | .error e => .error e
      | .ok (g, s2) => parse_expr_loop fuel (FExpr.sub f g) s2
    else .ok (f, s)

/-- `FunctionParser::parse_lvl0_term` (lines 119-136). -/
def parse_lvl0_term : Nat → PStream → Except Unit (FExpr × PStream)
  | 0, _ => .error ()
  | fuel + 1, s =>
    match parse_lvl1_term fuel s with
    | .error e => .error e
    | .ok (f, s1) => parse_lvl0_loop fuel f s1

/-- The `while (peek == '*' || peek == '/')` loop of `parse_lvl0_term`. -/
def parse_lvl0_loop : Nat → FExpr → PStream → Except Unit (FExpr × PStream)
  | 0, _, _ => .error ()
  | fuel + 1, f, s0 =>
    let s := skip_whitespace s0
    if s.peek = some '*' then
      match parse_lvl1_term fuel (s.get).2 with
      | .error e => .error e
      | .ok (g, s2) => parse_lvl0_loop fuel (FExpr.mul f g) s2
    else if s.peek = some '/' then
      match parse_lvl1_term fuel (s.get).2 with
      | .error e => .error e
      | .ok (g, s2) => parse_lvl0_loop fuel (FExpr.div f g) s2
    else .ok (f, s)

/-- `FunctionParser::parse_lvl1_term` (lines 138-151). -/
def parse_lvl1_term : Nat → PStream → Except Unit (FExpr × PStream)
  | 0, _ => .error ()
  | fuel + 1, s =>
    match parse_factor fuel s with
    | .error e => .error e
    | .ok (f, s1) => parse_lvl1_loop fuel f s1

/-- The `while (peek == '^')` loop of `parse_lvl1_term`. -/
def parse_lvl1_loop : Nat → FExpr → PStream → Except Unit (FExpr × PStream)
  | 0, _, _ => .error ()
  | fuel + 1, f, s0 =>
    let s := skip_whitespace s0
    if s.peek = some '^' then
      match parse_factor fuel (s.get).2 with
      | .error e => .error e
      | .ok (g, s2) => parse_lvl1_loop fuel (FExpr.pow f g) s2
    else .ok (f, s)

/-- `FunctionParser::parse_factor` (lines 192-217).  Note the `(` case of
the source consumes the `(` and returns `parse_expr()` *without checking
for a closing parenthesis* — embedded exactly so. -/
def parse_factor : Nat → PStream → Except Unit (FExpr × PStream)
  | 0, _ => .error ()
  | fuel + 1, s0 =>
    let s := skip_whitespace s0
    if s.peek = some '+' then
      parse_factor fuel (s.get).2
    else if s.peek = some '-' then
      match parse_factor fuel (s.get).2 with
      | .error e => .error e
      | .ok (f, s1) => .ok (FExpr.neg f, s1)
    else if s.peek = some 'I' then .ok (FExpr.iunit, (s.get).2)
    else if s.peek = some 'z' then .ok (FExpr.varZ, (s.get).2)
    else if s.peek = some '(' then parse_expr fuel (s.get).2
    else parse_number_or_fn fuel s

/-- `FunctionParser::parse_number_or_fn` (lines 219-228): a digit or `.`
routes to `parse_number`, anything else (including EOF) to
`parse_function`. -/
def parse_number_or_fn : Nat → PStream → Except Unit (FExpr × PStream)
  | 0, _ => .error ()
  | fuel + 1, s =>
    match s.peek with
    | some c =>
      if c.isDigit ∨ c = '.' then .ok (parse_number s)
      else parse_function fuel s
    | none => parse_function fuel s

/-- `FunctionParser::parse_function` (lines 290-341): resolve the name,
return the bare variable for `CONSTANT`, otherwise require `( expr )`. -/
def parse_function : Nat → PStream → Except Unit (FExpr × PStream)
  | 0, _ => .error ()
  | fuel + 1, s =>
    match get_function_name s with
    | .error e => .error e
    | .ok (fn, s1) =>
      if fn = functions.CONSTANT then .ok (FExpr.varC, s1)
      else
        let s2 := skip_whitespace s1
        if s2.peek = some '(' then
          match parse_expr fuel (s2.get).2 with
          | .error e => .error e
          | .ok (arg, s3) =>
            let s4 := skip_whitespace s3
            if s4.peek = some ')' then .ok (FExpr.call fn arg, (s4.get).2)
            else .error ()
        else .error ()

end

/-- The fuel budget used by `parserun`: ample for any input (every cycle of
the mutual recursion and every loop iteration consumes at least one
character). -/
def fuelFor (l : List Char) : Nat := 8 * l.length + 8

/-- A full run of `FunctionParser::get` exposing the final stream state. -/
def parserun (l : List Char) : Except Unit (FExpr × PStream) :=
  parse_expr (fuelFor l) ⟨l, false⟩

/-- `FunctionParser::get` (lines 90-94): compile a formula string; the
final stream state — in particular any unconsumed trailing input — is
discarded. -/
def compile (l : List Char) : Except Unit FExpr :=
  match parserun l with
  | .error e => .error e
  | .ok (f, _) => .ok f

/-- The characters that can extend an already-complete top-level parse when
appended right after it: the five operators, whitespace (consumed by
`skip_whitespace` ahead of the operator peeks), the characters that extend
a just-consumed numeric literal (digits, `.`, `e`, `E`), and `o` (which
turns a final bare `c` into `cos`). -/
def extChar (c : Char) : Bool :=
  c == '+' || c == '-' || c == '*' || c == '/' || c == '^' ||
  c == ' ' || c == '\t' || c == '.' || c == 'e' || c == 'E' ||
  c == 'o' || c.isDigit

/-- `headOK t`: the suffix `t` does not begin with an extending character. -/
def headOK (t : List Char) : Prop :=
  ∀ h, t.head? = some h → extChar h = false

/-- Goodness of a suffix `t` relative to a remaining input `rem`: only
constrains `t` when the parse consumed the whole input. -/
def GoodT (rem t : List Char) : Prop := rem = [] → headOK t

/-! ## Theorems: domain decomposition -/

theorem chunk_pos (nacross : Nat) : 1 ≤ chunk nacross :=
  Nat.le_add_left 1 _

theorem chunk_le (nacross : Nat) : chunk nacross ≤ points_per_thread + 1 :=
  Nat.add_le_add_right (Nat.div_le_self _ _) 1

theorem decompose_done {dom : DomainDims} {c : Nat} (h : dom.nup ≤ c) :
    decompose_domain dom c = none := by
  simp [decompose_domain, h]

theorem decompose_step {dom : DomainDims} {c : Nat} (hc : c < dom.nup)
    (hov : dom.nup + chunk dom.nacross ≤ U32) :
    decompose_domain dom c =
      some ((c, min (c + chunk dom.nacross) dom.nup),
        c + chunk dom.nacross) := by
  have hlt : c + chunk dom.nacross < U32 := by omega
  simp only [decompose_domain, if_neg (by omega : ¬ dom.nup ≤ c)]
  rw [Nat.mod_eq_of_lt hlt]
  congr 1
  rcases Nat.lt_or_ge (c + chunk dom.nacross) dom.nup with h | h
  · rw [if_pos h, Nat.min_eq_left (Nat.le_of_lt h)]
  · rw [if_neg (by omega), Nat.min_eq_right h]

theorem bandSeq_done {dom : DomainDims} {c : Nat} (h : dom.nup ≤ c) :
    ∀ fuel, bandSeq dom fuel c = [] := by
  intro fuel
  cases fuel with
  | zero => rfl
  | succ fuel => simp [bandSeq, decompose_done h]

theorem bandSeq_head (dom : DomainDims) :
    ∀ fuel c b l, bandSeq dom fuel c = b :: l → b.1 = c := by
  intro fuel c b l h
  cases fuel with
  | zero => simp [bandSeq] at h
  | succ fuel =>
    by_cases hc : dom.nup ≤ c
    · simp [bandSeq, decompose_done hc] at h
    · simp only [bandSeq, decompose_domain, if_neg hc] at h
      exact (congrArg Prod.fst (List.cons.inj h).1).symm

/-- The central invariant of the band-issuing loop, assuming the cursor
arithmetic never wraps (`dom.nup + chunk ≤ 2^32`): every issued band is
well-formed and clipped, bands are chained by `chunk`, pairwise ordered,
and with enough fuel the loop terminates with cursor `≥ nup` having
covered every row it started below. -/
theorem bandSeq_props (dom : DomainDims)
    (hov : dom.nup + chunk dom.nacross ≤ U32) :
    ∀ fuel c,
      (∀ b ∈ bandSeq dom fuel c, c ≤ b.1 ∧ b.1 < b.2 ∧ b.2 ≤ dom.nup ∧
          b.2 = min (b.1 + chunk dom.nacross) dom.nup) ∧
      List.Chain' (fun a b => b.1 = a.1 + chunk dom.nacross)
        (bandSeq dom fuel c) ∧
      List.Pairwise (fun a b => a.2 ≤ b.1) (bandSeq dom fuel c) ∧
      (dom.nup - c ≤ fuel →
        dom.nup ≤ finalCursor dom fuel c ∧
        ∀ r, c ≤ r → r < dom.nup →
          ∃ b ∈ bandSeq dom fuel c, b.1 ≤ r ∧ r < b.2) := by
  intro fuel
  induction fuel with
  | zero =>
    intro c
    refine ⟨by simp [bandSeq], by simp [bandSeq], by simp [bandSeq], ?_⟩
    intro hf
    refine ⟨by simpa [finalCursor] using (by omega : dom.nup ≤ c), ?_⟩
    intro r hcr hrn
    omega
  | succ fuel ih =>
    intro c
    by_cases hc : dom.nup ≤ c
    · refine ⟨by simp [bandSeq, decompose_done hc],
        by simp [bandSeq, decompose_done hc],
        by simp [bandSeq, decompose_done hc], ?_⟩
      intro _
      refine ⟨by simp [finalCursor, decompose_done hc, hc], ?_⟩
      intro r hcr hrn
      omega
    · push_neg at hc
      have hch := chunk_pos dom.nacross
      have hstep := decompose_step hc hov
      have hseq : bandSeq dom (fuel + 1) c =
          (c, min (c + chunk dom.nacross) dom.nup) ::
            bandSeq dom fuel (c + chunk dom.nacross) := by
        simp [bandSeq, hstep]
      have hfin : finalCursor dom (fuel + 1) c =
          finalCursor dom fuel (c + chunk dom.nacross) := by
        simp [finalCursor, hstep]
      obtain ⟨ihmem, ihchain, ihpw, ihcov⟩ := ih (c + chunk dom.nacross)
      have hmem : ∀ b ∈ bandSeq dom (fuel + 1) c,
          c ≤ b.1 ∧ b.1 < b.2 ∧ b.2 ≤ dom.nup ∧
            b.2 = min (b.1 + chunk dom.nacross) dom.nup := by
        intro b hb
        rw [hseq] at hb
        rcases List.mem_cons.mp hb with rfl | hb
        · refine ⟨Nat.le_refl _, ?_, Nat.min_le_right _ _, rfl⟩
          exact lt_min (by omega) hc
        · obtain ⟨h1, h2, h3, h4⟩ := ihmem b hb
          exact ⟨by omega, h2, h3, h4⟩
      refine ⟨hmem, ?_, ?_, ?_⟩
      · rw [hseq]
        rw [List.chain'_cons']
        refine ⟨?_, ihchain⟩
        intro b hb
        rcases hl : bandSeq dom fuel (c + chunk dom.nacross) with _ | ⟨b', l'⟩
        · simp [hl] at hb
        · have := bandSeq_head dom fuel (c + chunk dom.nacross) b' l' hl
          simp only [hl, List.head?_cons, Option.mem_def, Option.some.injEq] at hb
          subst hb
          exact this
      · rw [hseq]
        refine List.pairwise_cons.mpr ⟨?_, ihpw⟩
        intro b hb
        have := (ihmem b hb).1
        simp only
        calc min (c + chunk dom.nacross) dom.nup ≤ c + chunk dom.nacross :=
              Nat.min_le_left _ _
          _ ≤ b.1 := this
      · intro hf
        have hf' : dom.nup - (c + chunk dom.nacross) ≤ fuel := by omega
        obtain ⟨hfin', hcov'⟩ := ihcov hf'
        refine ⟨by rw [hfin]; exact hfin', ?_⟩
        intro r hcr hrn
        by_cases hr : r < min (c + chunk dom.nacross) dom.nup
        · refine ⟨(c, min (c + chunk dom.nacross) dom.nup), ?_, hcr, hr⟩
          rw [hseq]
          exact List.mem_cons_self _ _
        · push_neg at hr
          have h1 : c + chunk dom.nacross ≤ r := by
            rcases Nat.le_total (c + chunk dom.nacross) dom.nup with h | h
            · rwa [Nat.min_eq_left h] at hr
            · rw [Nat.min_eq_right h] at hr; omega
          obtain ⟨b, hb, hbr⟩ := hcov' r h1 hrn
          refine ⟨b, ?_, hbr⟩
          rw [hseq]
          exact List.mem_cons_of_mem _ hb

/-- The last issued band ends exactly at `dom.nup`. -/
theorem bandSeq_getLast (dom : DomainDims)
    (hov : dom.nup + chunk dom.nacross ≤ U32) :
    ∀ fuel c, c < dom.nup → dom.nup - c ≤ fuel →
      ∃ b, (bandSeq dom fuel c).getLast? = some b ∧ b.2 = dom.nup := by
  intro fuel
  induction fuel with
  | zero => intro c hc hf; omega
  | succ fuel ih =>
    intro c hc hf
    have hch := chunk_pos dom.nacross
    have hseq : bandSeq dom (fuel + 1) c =
        (c, min (c + chunk dom.nacross) dom.nup) ::
          bandSeq dom fuel (c + chunk dom.nacross) := by
      simp [bandSeq, decompose_step hc hov]
    by_cases hend : dom.nup ≤ c + chunk dom.nacross
    · have htail : bandSeq dom fuel (c + chunk dom.nacross) = [] :=
        bandSeq_done hend fuel
      refine ⟨(c, min (c + chunk dom.nacross) dom.nup), ?_, ?_⟩
      · rw [hseq, htail]; rfl
      · exact Nat.min_eq_right hend
    · push_neg at hend
      obtain ⟨b, hb, hbn⟩ := ih (c + chunk dom.nacross) hend (by omega)
      refine ⟨b, ?_, hbn⟩
      rw [hseq]
      rcases hl : bandSeq dom fuel (c + chunk dom.nacross) with _ | ⟨b', l'⟩
      · rw [hl] at hb; simp at hb
      · rw [hl] at hb
        rw [List.getLast?_cons_cons]
        exact hb

/-- Two distinct bands of a pairwise-ordered well-formed list cannot
contain the same row. -/
theorem bands_unique {l : List (Nat × Nat)}
    (hwf : ∀ b ∈ l, b.1 < b.2)
    (hpw : List.Pairwise (fun a b => a.2 ≤ b.1) l)
    {b b' : Nat × Nat} (hb : b ∈ l) (hb' : b' ∈ l) {r : Nat}
    (h1 : b.1 ≤ r) (h2 : r < b.2) (h3 : b'.1 ≤ r) (h4 : r < b'.2) :
    b = b' := by
  by_contra hne
  have hsym : Symmetric (fun a b : Nat × Nat => a.2 ≤ b.1 ∨ b.2 ≤ a.1) := by
    intro x y h
    exact h.symm
  have hpw' : List.Pairwise (fun a b : Nat × Nat => a.2 ≤ b.1 ∨ b.2 ≤ a.1) l :=
    hpw.imp (fun h => Or.inl h)
  have := hpw'.forall hsym hb hb' hne
  rcases this with h | h <;> omega

theorem cursorIter_shift (dom : DomainDims) (c : Nat) :
    ∀ j, cursorIter dom ((c + chunk dom.nacross) % U32) j =
      cursorIter dom c (j + 1) := by
  intro j
  induction j with
  | zero => rfl
  | succ j ih => simp only [cursorIter, ih]

/-- As long as every cursor value stays below `nup`, the `k`-th issued band
starts at the `k`-th unguarded cursor iterate and ends at its clip. -/
theorem bandSeq_get? (dom : DomainDims) :
    ∀ k fuel c, k < fuel →
      (∀ j, j ≤ k → cursorIter dom c j < dom.nup) →
      (bandSeq dom fuel c).get? k =
        some (cursorIter dom c k,
          if (cursorIter dom c k + chunk dom.nacross) % U32 < dom.nup
          then (cursorIter dom c k + chunk dom.nacross) % U32
          else dom.nup) := by
  intro k
  induction k with
  | zero =>
    intro fuel c hk hlt
    obtain ⟨f, rfl⟩ : ∃ f, fuel = f + 1 := ⟨fuel - 1, by omega⟩
    have hc : c < dom.nup := hlt 0 (Nat.le_refl _)
    simp only [bandSeq, decompose_domain, if_neg (by omega : ¬ dom.nup ≤ c)]
    rfl
  | succ k ih =>
    intro fuel c hk hlt
    obtain ⟨f, rfl⟩ : ∃ f, fuel = f + 1 := ⟨fuel - 1, by omega⟩
    have hc : c < dom.nup := hlt 0 (Nat.zero_le _)
    simp only [bandSeq, decompose_domain, if_neg (by omega : ¬ dom.nup ≤ c)]
    rw [List.get?_cons_succ]
    rw [ih f ((c + chunk dom.nacross) % U32) (by omega)
      (fun j hj => by rw [cursorIter_shift]; exact hlt (j + 1) (by omega)),
      cursorIter_shift]

theorem cursorIter_closed :
    ∀ k, cursorIter ⟨1, 4294967295⟩ 0 k = k * 100001 % U32 := by
  intro k
  induction k with
  | zero => simp [cursorIter]
  | succ k ih =>
    show (cursorIter ⟨1, 4294967295⟩ 0 k + chunk 1) % U32 = _
    rw [ih]
    have hch : chunk 1 = 100001 := rfl
    rw [hch, Nat.mod_add_mod, Nat.succ_mul]

theorem cursorIter_lt :
    ∀ j, j ≤ 42950 → cursorIter ⟨1, 4294967295⟩ 0 j < 4294967295 := by
  intro j hj
  rw [cursorIter_closed]
  rcases Nat.lt_or_ge j 42950 with h | h
  · have h1 : j * 100001 ≤ 42949 * 100001 :=
      Nat.mul_le_mul_right _ (by omega)
    have h2 : j * 100001 < U32 := by
      have : (42949 : Nat) * 100001 < U32 := by norm_num [U32]
      omega
    rw [Nat.mod_eq_of_lt h2]
    have : (42949 : Nat) * 100001 = 4294942949 := by norm_num
    omega
  · have hj' : j = 42950 := by omega
    subst hj'
    norm_num [U32]

/-- C2, refutation of the claim as stated: with `columns = 1` and
`rows = 2^32 - 1` (both `≥ 1`), the 32-bit cursor update
`dom_start += points_per_thread / nacross + 1` wraps around.  Band 42949
is issued at first row 4294942949, and the *next* issued band starts at
row 75654 — the row ranges are not monotonically non-decreasing, and band
42950 (rows `[75654, 175655)`) overlaps band 0 (rows `[0, 100001)`), so
rows in the overlap are written more than once. -/
theorem claim2_counterexample :
    (bandSeq ⟨1, 4294967295⟩ 42951 0).get? 42949 =
        some (4294942949, 75654) ∧
    (bandSeq ⟨1, 4294967295⟩ 42951 0).get? 42950 = some (75654, 175655) ∧
    (bandSeq ⟨1, 4294967295⟩ 42951 0).get? 0 = some (0, 100001) ∧
    75654 < 4294942949 ∧ 75654 < 100001 ∧ 0 < 175655 := by
  have h1 : cursorIter ⟨1, 4294967295⟩ 0 42949 = 4294942949 := by
    rw [cursorIter_closed]
    norm_num [U32]
  have h2 : cursorIter ⟨1, 4294967295⟩ 0 42950 = 75654 := by
    rw [cursorIter_closed]
    norm_num [U32]
  have h0 : cursorIter ⟨1, 4294967295⟩ 0 0 = 0 := rfl
  refine ⟨?_, ?_, ?_, by omega, by omega, by omega⟩
  · rw [bandSeq_get? ⟨1, 4294967295⟩ 42949 42951 0 (by omega)
      (fun j hj => cursorIter_lt j (by omega))]
    rw [h1]
    norm_num [U32, chunk, points_per_thread]
  · rw [bandSeq_get? ⟨1, 4294967295⟩ 42950 42951 0 (by omega)
      (fun j hj => cursorIter_lt j (by omega))]
    rw [h2]
    norm_num [U32, chunk, points_per_thread]
  · rw [bandSeq_get? ⟨1, 4294967295⟩ 0 42951 0 (by omega)
      (fun j hj => cursorIter_lt j (by omega))]
    rw [h0]
    norm_num [U32, chunk, points_per_thread]

/-- C2 (amended): *provided the cursor arithmetic cannot wrap*
(`rows + chunk ≤ 2^32` — the claim as stated fails for `rows` close to
`2^32`, see the counterexample), within one computation started at cursor
0 the issued bands are well-formed sub-ranges of `[0, rows)`, pairwise
ordered (hence monotonically non-decreasing and disjoint), every row below
`rows` lies in exactly one band, once the cursor reaches `rows` the
decomposition reports done and issues nothing further, and consequently
every cell of the `rows × columns` grid belongs to exactly one band's
written slice. -/
theorem claim2_amended (dom : DomainDims)
    (hna : 1 ≤ dom.nacross) (hnu : 1 ≤ dom.nup)
    (hov : dom.nup + chunk dom.nacross ≤ U32) :
    (∀ b ∈ bandListFrom dom 0, b.1 < b.2 ∧ b.2 ≤ dom.nup) ∧
    List.Pairwise (fun a b => a.2 ≤ b.1) (bandListFrom dom 0) ∧
    (∀ r, r < dom.nup →
      ∃! b, b ∈ bandListFrom dom 0 ∧ b.1 ≤ r ∧ r < b.2) ∧
    (∀ c, dom.nup ≤ c → decompose_domain dom c = none) ∧
    dom.nup ≤ finalCursor dom dom.nup 0 ∧
    (∀ p, p < dom.nup * dom.nacross →
      ∃! b, b ∈ bandListFrom dom 0 ∧
        b.1 * dom.nacross ≤ p ∧ p < b.2 * dom.nacross) := by
  obtain ⟨hmem, hchain, hpw, hcov⟩ := bandSeq_props dom hov dom.nup 0
  obtain ⟨hfin, hrows⟩ := hcov (by omega)
  have hwf : ∀ b ∈ bandListFrom dom 0, b.1 < b.2 := by
    intro b hb
    exact (hmem b hb).2.1
  refine ⟨?_, hpw, ?_, ?_, hfin, ?_⟩
  · intro b hb
    exact ⟨(hmem b hb).2.1, (hmem b hb).2.2.1⟩
  · intro r hrn
    obtain ⟨b, hb, hb1, hb2⟩ := hrows r (Nat.zero_le _) hrn
    refine ⟨b, ⟨hb, hb1, hb2⟩, ?_⟩
    intro b' ⟨hb', hb'1, hb'2⟩
    exact bands_unique hwf hpw hb' hb hb'1 hb'2 hb1 hb2
  · intro c hc
    exact decompose_done hc
  · intro p hp
    have hna' : 0 < dom.nacross := hna
    have hrow : p / dom.nacross < dom.nup :=
      Nat.div_lt_iff_lt_mul hna' |>.mpr hp
    obtain ⟨b, hb, hb1, hb2⟩ := hrows (p / dom.nacross) (Nat.zero_le _) hrow
    have cell_iff : ∀ b' : Nat × Nat,
        (b'.1 * dom.nacross ≤ p ∧ p < b'.2 * dom.nacross) ↔
          (b'.1 ≤ p / dom.nacross ∧ p / dom.nacross < b'.2) := by
      intro b'
      constructor
      · intro ⟨h1, h2⟩
        exact ⟨(Nat.le_div_iff_mul_le hna').mpr h1,
          (Nat.div_lt_iff_lt_mul hna').mpr h2⟩
      · intro ⟨h1, h2⟩
        exact ⟨(Nat.le_div_iff_mul_le hna').mp h1,
          (Nat.div_lt_iff_lt_mul hna').mp h2⟩
    refine ⟨b, ⟨hb, (cell_iff b).mpr ⟨hb1, hb2⟩⟩, ?_⟩
    intro b' ⟨hb', hcell⟩
    obtain ⟨h1, h2⟩ := (cell_iff b').mp hcell
    exact bands_unique hwf hpw hb' hb h1 h2 hb1 hb2

/-- Witness for `claim2_amended` at the concrete domain
`columns = 1, rows = 2`. -/
theorem claim2_witness :
    ((1 : Nat) ≤ 1 ∧ (1 : Nat) ≤ 2 ∧
      (2 : Nat) + chunk 1 ≤ U32) ∧
    ((∀ b ∈ bandListFrom ⟨1, 2⟩ 0, b.1 < b.2 ∧ b.2 ≤ 2) ∧
      List.Pairwise (fun a b => a.2 ≤ b.1) (bandListFrom ⟨1, 2⟩ 0) ∧
      (∀ r, r < 2 → ∃! b, b ∈ bandListFrom ⟨1, 2⟩ 0 ∧ b.1 ≤ r ∧ r < b.2) ∧
      (∀ c, 2 ≤ c → decompose_domain ⟨1, 2⟩ c = none) ∧
      2 ≤ finalCursor ⟨1, 2⟩ 2 0 ∧
      (∀ p, p < 2 * 1 →
        ∃! b, b ∈ bandListFrom ⟨1, 2⟩ 0 ∧ b.1 * 1 ≤ p ∧ p < b.2 * 1)) :=
  ⟨⟨by decide, by decide, by decide⟩,
    claim2_amended ⟨1, 2⟩ (by decide) (by decide) (by decide)⟩

/-- C1, refutation of the claim as stated: `make_fractal` never resets the
process-global cursor (`domain_start` in src/fractals.cpp is initialised
to 0 once and `make_fractal` only reads/advances it).  Concretely, for the
2-row, 1-column domain with a checker writing 7 everywhere, the first call
(from the process-initial cursor 0) fills cell 0 with 7 and leaves the
cursor at 100001; a second call in the same process starts from 100001,
issues no band at all, and returns a grid still at its zero-initialised
values — it does not "fully populate its own grid". -/
theorem claim1_counterexample :
    (make_fractal ⟨1, 2⟩ (fun _ _ => 7) 1 0).1 0 = 7 ∧
    (make_fractal ⟨1, 2⟩ (fun _ _ => 7) 1 0).2 = 100001 ∧
    (make_fractal ⟨1, 2⟩ (fun _ _ => 7) 1
        (make_fractal ⟨1, 2⟩ (fun _ _ => 7) 1 0).2).1 0 = 0 ∧
    bandListFrom ⟨1, 2⟩ (make_fractal ⟨1, 2⟩ (fun _ _ => 7) 1 0).2 = [] := by
  refine ⟨?_, ?_, ?_, ?_⟩ <;> decide

/-- C1 (amended): the shared work cursor is *not* reset by `make_fractal`;
it is process-global, initialised to 0 once at process start.  A call that
starts from cursor value 0 issues its first band at row 0 and, on
completion, leaves the cursor at a value `≥ rows`; any later call in the
same process therefore starts from a cursor `≥ rows`, issues no bands,
and returns its grid still zero-initialised.  (Requires the no-wraparound
condition `rows + chunk ≤ 2^32` of C2.) -/
theorem claim1_amended (dom : DomainDims) (chk chk2 : Nat × Nat → Nat → Nat)
    (t : Nat) (hnu : 1 ≤ dom.nup)
    (hov : dom.nup + chunk dom.nacross ≤ U32) :
    (∃ m, (bandListFrom dom 0).head? = some (0, m)) ∧
    dom.nup ≤ (make_fractal dom chk 1 0).2 ∧
    bandListFrom dom ((make_fractal dom chk 1 0).2) = [] ∧
    (make_fractal dom chk2 t ((make_fractal dom chk 1 0).2)).1 = grid0 := by
  have hfc : (make_fractal dom chk 1 0).2 = finalCursor dom dom.nup 0 := by
    simp [make_fractal]
  obtain ⟨_, _, _, hcov⟩ := bandSeq_props dom hov dom.nup 0
  obtain ⟨hfin, _⟩ := hcov (by omega)
  have hdone : dom.nup ≤ (make_fractal dom chk 1 0).2 := by
    rw [hfc]; exact hfin
  have hempty : bandListFrom dom ((make_fractal dom chk 1 0).2) = [] :=
    bandSeq_done hdone _
  refine ⟨?_, hdone, hempty, ?_⟩
  · rcases hl : bandListFrom dom 0 with _ | ⟨b, l⟩
    · exfalso
      obtain ⟨b, hb, _⟩ := (hcov (by omega)).2 0 (Nat.le_refl 0) hnu
      rw [show bandSeq dom dom.nup 0 = bandListFrom dom 0 from rfl, hl] at hb
      exact List.not_mem_nil b hb
    · obtain ⟨b1, b2⟩ := b
      have h1 : b1 = 0 := bandSeq_head dom dom.nup 0 (b1, b2) l hl
      refine ⟨b2, ?_⟩
      rw [h1]
      rfl
  · have h2 := hempty
    revert h2
    generalize (make_fractal dom chk 1 0).2 = X
    intro h2
    rcases Nat.eq_zero_or_pos t with rfl | ht
    · simp [make_fractal]
    · simp only [make_fractal, if_neg (by omega : ¬ t = 0), h2]
      rfl

/-- Witness for `claim1_amended` at the domain `columns = 1, rows = 2`. -/
theorem claim1_witness :
    ((1 : Nat) ≤ 2 ∧ (2 : Nat) + chunk 1 ≤ U32) ∧
    ((∃ m, (bandListFrom ⟨1, 2⟩ 0).head? = some (0, m)) ∧
      2 ≤ (make_fractal ⟨1, 2⟩ (fun _ _ => 7) 1 0).2 ∧
      bandListFrom ⟨1, 2⟩ ((make_fractal ⟨1, 2⟩ (fun _ _ => 7) 1 0).2) = [] ∧
      (make_fractal ⟨1, 2⟩ (fun _ _ => 9) 3
        ((make_fractal ⟨1, 2⟩ (fun _ _ => 7) 1 0).2)).1 = grid0) :=
  ⟨⟨by decide, by decide⟩,
    claim1_amended ⟨1, 2⟩ (fun _ _ => 7) (fun _ _ => 9) 3
      (by decide) (by decide)⟩

/-- C5, refutation of the claim as stated: the source advances the cursor
by `points_per_thread / columns + 1` where `/` is C++ integer (floor)
division, not `ceil(points_per_thread / columns) + 1`.  With
`columns = 3` (which does not divide 100000) and `rows = 1000000`, the
first issued band (which is not the last — a second band follows) spans
rows `[0, 33334)`, i.e. 33334 rows, whereas
`ceil(100000 / 3) + 1 = 33335`. -/
theorem claim5_counterexample :
    bandSeq ⟨3, 1000000⟩ 2 0 = [(0, 33334), (33334, 66668)] ∧
    (33334 : Nat) - 0 ≠ (100000 + 3 - 1) / 3 + 1 := by
  refine ⟨?_, by decide⟩
  decide

/-- C5 (amended): every issued band other than the last consists of exactly
`⌊points_per_thread / columns⌋ + 1` rows (floor division — the claim's
`ceil` is wrong whenever `columns` does not divide 100000); every band has
at most that many rows; and the last band ends exactly at `total_rows`.
(Under the no-wraparound condition `rows + chunk ≤ 2^32` of C2.) -/
theorem claim5_amended (dom : DomainDims)
    (hna : 1 ≤ dom.nacross) (hnu : 1 ≤ dom.nup)
    (hov : dom.nup + chunk dom.nacross ≤ U32) :
    (∀ i b b', (bandListFrom dom 0).get? i = some b →
      (bandListFrom dom 0).get? (i + 1) = some b' →
      b.2 - b.1 = points_per_thread / dom.nacross + 1) ∧
    (∀ b ∈ bandListFrom dom 0,
      b.2 - b.1 ≤ points_per_thread / dom.nacross + 1) ∧
    (∃ b, (bandListFrom dom 0).getLast? = some b ∧ b.2 = dom.nup) := by
  obtain ⟨hmem, hchain, hpw, hcov⟩ := bandSeq_props dom hov dom.nup 0
  refine ⟨?_, ?_, ?_⟩
  · intro i b b' hb hb'
    have hb0 : (bandSeq dom dom.nup 0).get? i = some b := hb
    have hb1 : (bandSeq dom dom.nup 0).get? (i + 1) = some b' := hb'
    have hib : i + 1 < (bandSeq dom dom.nup 0).length :=
      (List.get?_eq_some.mp hb1).1
    have hR := List.chain'_iff_get.mp hchain i (by omega)
    have eb : b = (bandSeq dom dom.nup 0).get ⟨i, by omega⟩ :=
      (Option.some.inj ((List.get?_eq_get (by omega)).symm.trans hb0)).symm
    have eb' : b' = (bandSeq dom dom.nup 0).get ⟨i + 1, by omega⟩ :=
      (Option.some.inj ((List.get?_eq_get (by omega)).symm.trans hb1)).symm
    have hnext : b'.1 = b.1 + chunk dom.nacross := by
      rw [eb, eb']; exact hR
    have hbmem : b ∈ bandSeq dom dom.nup 0 := by
      rw [eb]; exact List.get_mem _ _ _
    have hb'mem : b' ∈ bandSeq dom dom.nup 0 := by
      rw [eb']; exact List.get_mem _ _ _
    obtain ⟨-, hwfb, hleb, heq⟩ := hmem b hbmem
    obtain ⟨-, hwf', hle', -⟩ := hmem b' hb'mem
    have hlt : b.1 + chunk dom.nacross < dom.nup := by omega
    rw [Nat.min_eq_left (by omega)] at heq
    show b.2 - b.1 = chunk dom.nacross
    omega
  · intro b hb
    obtain ⟨_, hwf, hle, heq⟩ := hmem b hb
    have : b.2 ≤ b.1 + chunk dom.nacross := heq ▸ Nat.min_le_left _ _
    show b.2 - b.1 ≤ chunk dom.nacross
    omega
  · exact bandSeq_getLast dom hov dom.nup 0 (by omega) (by omega)

/-- Witness for `claim5_amended` at the domain `columns = 1, rows = 2`. -/
theorem claim5_witness :
    ((1 : Nat) ≤ 1 ∧ (1 : Nat) ≤ 2 ∧ (2 : Nat) + chunk 1 ≤ U32) ∧
    ((∀ i b b', (bandListFrom ⟨1, 2⟩ 0).get? i = some b →
        (bandListFrom ⟨1, 2⟩ 0).get? (i + 1) = some b' →
        b.2 - b.1 = points_per_thread / 1 + 1) ∧
      (∀ b ∈ bandListFrom ⟨1, 2⟩ 0,
        b.2 - b.1 ≤ points_per_thread / 1 + 1) ∧
      (∃ b, (bandListFrom ⟨1, 2⟩ 0).getLast? = some b ∧ b.2 = 2)) :=
  ⟨⟨by decide, by decide, by decide⟩,
    claim5_amended ⟨1, 2⟩ (by decide) (by decide) (by decide)⟩

/-- Under the in-range side conditions, a band's fill writes exactly the
cell range `[first_row * nacross, last_row * nacross)`. -/
theorem fillBand_eq {nacross nup : Nat} (chk : Nat × Nat → Nat → Nat)
    (hna : 1 ≤ nacross) (hgr : nup * nacross ≤ U32) (hnup : nup < U32)
    {b : Nat × Nat} (hb1 : b.1 < b.2) (hb2 : b.2 ≤ nup) (g : Grid) :
    fillBand nacross chk g b = fun p =>
      if b.1 * nacross ≤ p ∧ p < b.2 * nacross
      then chk b (p - b.1 * nacross) else g p := by
  have hofs : b.1 * nacross % U32 = b.1 * nacross := by
    apply Nat.mod_eq_of_lt
    have h1 : (b.1 + 1) * nacross ≤ nup * nacross :=
      Nat.mul_le_mul_right _ (by omega)
    rw [Nat.succ_mul] at h1
    omega
  have hd : usub b.2 b.1 = b.2 - b.1 := by
    unfold usub
    rw [show U32 + b.2 - b.1 = U32 + (b.2 - b.1) by omega, Nat.add_mod_left]
    exact Nat.mod_eq_of_lt (by omega)
  funext p
  show (if b.1 * nacross % U32 ≤ p ∧
          p < b.1 * nacross % U32 + usub b.2 b.1 * nacross
        then chk b (p - b.1 * nacross % U32) else g p) = _
  rw [hofs, hd]
  have hsum : b.1 * nacross + (b.2 - b.1) * nacross = b.2 * nacross := by
    rw [← Nat.add_mul]
    congr 1
    omega
  rw [hsum]

/-- Fills of row-disjoint well-formed bands commute. -/
theorem fillBand_comm {nacross nup : Nat} (chk : Nat × Nat → Nat → Nat)
    (hna : 1 ≤ nacross) (hgr : nup * nacross ≤ U32) (hnup : nup < U32)
    {b b' : Nat × Nat} (hb1 : b.1 < b.2) (hb2 : b.2 ≤ nup)
    (hb1' : b'.1 < b'.2) (hb2' : b'.2 ≤ nup)
    (hd : b.2 ≤ b'.1 ∨ b'.2 ≤ b.1) (g : Grid) :
    fillBand nacross chk (fillBand nacross chk g b) b' =
      fillBand nacross chk (fillBand nacross chk g b') b := by
  rw [fillBand_eq chk hna hgr hnup hb1 hb2,
      fillBand_eq chk hna hgr hnup hb1' hb2',
      fillBand_eq chk hna hgr hnup hb1' hb2',
      fillBand_eq chk hna hgr hnup hb1 hb2]
  funext p
  have hdm : b.2 * nacross ≤ b'.1 * nacross ∨
      b'.2 * nacross ≤ b.1 * nacross := by
    rcases hd with h | h
    · exact Or.inl (Nat.mul_le_mul_right _ h)
    · exact Or.inr (Nat.mul_le_mul_right _ h)
  split_ifs <;> first | rfl | omega

/-- Folding the fills of pairwise row-disjoint well-formed bands is
invariant under permutation of the fill order. -/
theorem runBands_perm {nacross nup : Nat} (chk : Nat × Nat → Nat → Nat)
    (hna : 1 ≤ nacross) (hgr : nup * nacross ≤ U32) (hnup : nup < U32) :
    ∀ {l l' : List (Nat × Nat)}, l.Perm l' →
      (∀ b ∈ l, b.1 < b.2 ∧ b.2 ≤ nup) →
      List.Pairwise (fun a b => a.2 ≤ b.1 ∨ b.2 ≤ a.1) l →
      ∀ g, runBands nacross chk g l = runBands nacross chk g l' := by
  have hsym : Symmetric (fun a b : Nat × Nat => a.2 ≤ b.1 ∨ b.2 ≤ a.1) := by
    intro x y h
    exact h.symm
  intro l l' hp
  induction hp with
  | nil => intro _ _ g; rfl
  | cons x hp ih =>
    intro hwf hpw g
    exact ih (fun b hb => hwf b (List.mem_cons_of_mem _ hb))
      (List.pairwise_cons.mp hpw).2 (fillBand nacross chk g x)
  | swap x y l =>
    intro hwf hpw g
    show runBands nacross chk
        (fillBand nacross chk (fillBand nacross chk g y) x) l =
      runBands nacross chk
        (fillBand nacross chk (fillBand nacross chk g x) y) l
    have hy := hwf y (List.mem_cons_self _ _)
    have hx := hwf x (List.mem_cons_of_mem _ (List.mem_cons_self _ _))
    have hR : y.2 ≤ x.1 ∨ x.2 ≤ y.1 :=
      (List.pairwise_cons.mp hpw).1 x
        (List.mem_cons_self _ _)
    exact congrArg (fun g' => runBands nacross chk g' l)
      (fillBand_comm chk hna hgr hnup hy.1 hy.2 hx.1 hx.2 hR g)
  | trans hp1 hp2 ih1 ih2 =>
    intro hwf hpw g
    rw [ih1 hwf hpw g]
    exact ih2 (fun b hb => hwf b (hp1.mem_iff.mpr hb))
      ((hp1.pairwise_iff (fun h => h.symm)).mp hpw) g

/-- C4, refutation of the claim as stated (for *every* domain): at the
wraparound domain `columns = 1, rows = 2^32 - 1` the decomposition issues
overlapping bands — the first issued band covers rows `[0, 100001)` and
issued band number 42950 covers `[75654, 175655)` — and the fills of
these two issued bands write different values to the shared cell 75654.
The final grid therefore depends on the order in which the racing worker
threads complete their unsynchronised writes (an order the thread count
and schedule are free to change): the same two issued fills applied in
the two orders give grids differing at cell 75654, so the bit-for-bit
determinism guarantee fails for this domain (in the C++, those writes
additionally index the `values` vector out of bounds). -/
theorem claim4_counterexample :
    (bandListFrom ⟨1, 4294967295⟩ 0).get? 0 = some (0, 100001) ∧
    (bandListFrom ⟨1, 4294967295⟩ 0).get? 42950 = some (75654, 175655) ∧
    List.Perm [((75654 : Nat), (175655 : Nat)), (0, 100001)]
      [((0 : Nat), (100001 : Nat)), (75654, 175655)] ∧
    make_fractal_ord ⟨1, 4294967295⟩ (fun b _ => b.1) 1
        [(0, 100001), (75654, 175655)] 75654 = 75654 ∧
    make_fractal_ord ⟨1, 4294967295⟩ (fun b _ => b.1) 2
        [(75654, 175655), (0, 100001)] 75654 = 0 ∧
    (75654 : Nat) ≠ 0 := by
  refine ⟨?_, ?_, List.Perm.swap _ _ _, by decide, by decide, by decide⟩
  · show (bandSeq ⟨1, 4294967295⟩ 4294967295 0).get? 0 = _
    rw [bandSeq_get? ⟨1, 4294967295⟩ 0 4294967295 0 (by omega)
      (fun j hj => cursorIter_lt j (by omega))]
    rw [show cursorIter ⟨1, 4294967295⟩ 0 0 = 0 from rfl]
    norm_num [U32, chunk, points_per_thread]
  · show (bandSeq ⟨1, 4294967295⟩ 4294967295 0).get? 42950 = _
    rw [bandSeq_get? ⟨1, 4294967295⟩ 42950 4294967295 0 (by omega)
      (fun j hj => cursorIter_lt j (by omega))]
    rw [show cursorIter ⟨1, 4294967295⟩ 0 42950 = 75654 from by
      rw [cursorIter_closed]; norm_num [U32]]
    norm_num [U32, chunk, points_per_thread]

/-- C4 (amended): the determinism guarantee holds for every domain within
the 32-bit index range — `rows + chunk ≤ 2^32` (no cursor wraparound, the
condition forced by the C2 counterexample) and `rows * columns ≤ 2^32`
(grid indices in range) — but not, as the claim states, for *every*
domain (see the counterexample).  Within that range: for every per-band
checker, any two positive thread counts and any two completion orders of
the unlocked band fills (each a permutation of the mutex-serialised claim
sequence), the produced grids are identical bit-for-bit: band boundaries
and written values depend only on the domain and `points_per_thread`,
not on the number of workers or the schedule. -/
theorem claim4_amended (dom : DomainDims) (chk : Nat × Nat → Nat → Nat)
    (t1 t2 : Nat) (o1 o2 : List (Nat × Nat))
    (ht1 : 1 ≤ t1) (ht2 : 1 ≤ t2) (hna : 1 ≤ dom.nacross)
    (hov : dom.nup + chunk dom.nacross ≤ U32)
    (hgr : dom.nup * dom.nacross ≤ U32)
    (ho1 : o1.Perm (bandListFrom dom 0))
    (ho2 : o2.Perm (bandListFrom dom 0)) :
    make_fractal_ord dom chk t1 o1 = make_fractal_ord dom chk t2 o2 := by
  obtain ⟨hmem, -, hpw, -⟩ := bandSeq_props dom hov dom.nup 0
  have hnup : dom.nup < U32 := by
    have := chunk_pos dom.nacross
    omega
  have hwf : ∀ b ∈ bandListFrom dom 0, b.1 < b.2 ∧ b.2 ≤ dom.nup :=
    fun b hb => ⟨(hmem b hb).2.1, (hmem b hb).2.2.1⟩
  have hpw' : List.Pairwise (fun a b => a.2 ≤ b.1 ∨ b.2 ≤ a.1)
      (bandListFrom dom 0) := hpw.imp Or.inl
  have h1 : runBands dom.nacross chk grid0 (bandListFrom dom 0) =
      runBands dom.nacross chk grid0 o1 :=
    runBands_perm chk hna hgr hnup ho1.symm hwf hpw' grid0
  have h2 : runBands dom.nacross chk grid0 (bandListFrom dom 0) =
      runBands dom.nacross chk grid0 o2 :=
    runBands_perm chk hna hgr hnup ho2.symm hwf hpw' grid0
  simp only [make_fractal_ord, if_neg (by omega : ¬ t1 = 0),
    if_neg (by omega : ¬ t2 = 0)]
  rw [← h1, ← h2]

/-- Witness for `claim4_amended`: domain `columns = 1, rows = 2`,
thread counts 1 and 2, with the (unique) one-band fill order. -/
theorem claim4_witness :
    ((1 : Nat) ≤ 1 ∧ (1 : Nat) ≤ 2 ∧
      (2 : Nat) + chunk 1 ≤ U32 ∧ (2 : Nat) * 1 ≤ U32 ∧
      List.Perm [(0, 2)] (bandListFrom ⟨1, 2⟩ 0)) ∧
    make_fractal_ord ⟨1, 2⟩ (fun _ _ => 5) 1 [(0, 2)] =
      make_fractal_ord ⟨1, 2⟩ (fun _ _ => 5) 2 [(0, 2)] :=
  ⟨⟨by decide, by decide, by decide, by decide, by decide⟩,
    claim4_amended ⟨1, 2⟩ (fun _ _ => 5) 1 2 [(0, 2)] [(0, 2)]
      (by decide) (by decide) (by decide) (by decide) (by decide)
      (by decide) (by decide)⟩

/-! ## Theorems: escape-time evaluators -/

theorem loopAux_le {C : Type} (esc : C → Bool) (step : C → C) :
    ∀ fuel iters t, iters ≤ loopAux esc step fuel iters t ∧
      loopAux esc step fuel iters t ≤ iters + fuel := by
  intro fuel
  induction fuel with
  | zero => intro iters t; simp [loopAux]
  | succ fuel ih =>
    intro iters t
    simp only [loopAux]
    split_ifs
    · have := ih (iters + 1) (step t)
      omega
    · omega

theorem loopAux_all {C : Type} (esc : C → Bool) (step : C → C) :
    ∀ fuel iters t, (∀ n, n < fuel → esc (applyN step n t) = true) →
      loopAux esc step fuel iters t = iters + fuel := by
  intro fuel
  induction fuel with
  | zero => intro iters t _; rfl
  | succ fuel ih =>
    intro iters t hall
    have h0 : esc t = true := hall 0 (by omega)
    simp only [loopAux, h0, if_true]
    rw [ih (iters + 1) (step t) (fun n hn => hall (n + 1) (by omega))]
    omega

theorem loopAux_escape {C : Type} (esc : C → Bool) (step : C → C) :
    ∀ n fuel iters t, n < fuel → esc (applyN step n t) = false →
      (∀ m, m < n → esc (applyN step m t) = true) →
      loopAux esc step fuel iters t = iters + n := by
  intro n
  induction n with
  | zero =>
    intro fuel iters t hn hesc _
    obtain ⟨f, rfl⟩ : ∃ f, fuel = f + 1 := ⟨fuel - 1, by omega⟩
    have h0 : esc t = false := hesc
    simp [loopAux, h0]
  | succ n ih =>
    intro fuel iters t hn hesc hall
    obtain ⟨f, rfl⟩ : ∃ f, fuel = f + 1 := ⟨fuel - 1, by omega⟩
    have h0 : esc t = true := hall 0 (by omega)
    simp only [loopAux, h0, if_true]
    rw [ih f (iters + 1) (step t) (by omega) hesc
      (fun m hm => hall (m + 1) (by omega))]
    omega

/-- C3 (amended): for every escape test, formula, constant, iteration cap
`M` and input point, both evaluators return a value in `{0} ∪ [1, M-1]`;
the returned value differs from `M` *provided `M ≥ 1`* — the claim's
unconditional "never equals M" fails at the degenerate cap `M = 0`, where
the sentinel 0 equals `M` (see the counterexample). -/
theorem claim3_amended {C : Type} (esc : C → Bool) (f : C → C → C)
    (constant : C) (M : Nat) (p : C) :
    (ztestfun esc f constant M p = 0 ∨
      (1 ≤ ztestfun esc f constant M p ∧
        ztestfun esc f constant M p ≤ M - 1)) ∧
    (ctestfun esc f constant M p = 0 ∨
      (1 ≤ ctestfun esc f constant M p ∧
        ctestfun esc f constant M p ≤ M - 1)) ∧
    (1 ≤ M → ztestfun esc f constant M p ≠ M) ∧
    (1 ≤ M → ctestfun esc f constant M p ≠ M) := by
  have hz := loopAux_le esc (fun t => f t constant) M 0 p
  have hc := loopAux_le esc (fun t => f t p) M 0 constant
  have ezdef : ztestfun esc f constant M p =
      if loopAux esc (fun t => f t constant) M 0 p = M then 0
      else loopAux esc (fun t => f t constant) M 0 p := rfl
  have ecdef : ctestfun esc f constant M p =
      if loopAux esc (fun t => f t p) M 0 constant = M then 0
      else loopAux esc (fun t => f t p) M 0 constant := rfl
  rw [ezdef, ecdef]
  refine ⟨?_, ?_, ?_, ?_⟩ <;> [skip; skip; intro hM; intro hM] <;>
    split_ifs with h <;> omega

/-- C3, refutation of the unconditional "never equals M": with
`max_iterations = M = 0` the evaluator returns the sentinel 0, which
equals `M`. -/
theorem claim3_counterexample :
    ztestfun (C := Nat) (fun _ => true) (fun t _ => t) 0 0 0 = 0 := rfl

/-- Witness for `claim3_amended` (discharging the `1 ≤ M` hypotheses) at a
concrete evaluator with `M = 5`. -/
theorem claim3_witness :
    (1 ≤ (5 : Nat)) ∧
    ztestfun (C := Nat) (fun t => decide (t < 2)) (fun t _ => t + 1)
        0 5 0 ≠ 5 ∧
    ctestfun (C := Nat) (fun t => decide (t < 2)) (fun t _ => t + 1)
        0 5 0 ≠ 5 :=
  ⟨by decide,
    (claim3_amended (C := Nat) (fun t => decide (t < 2)) (fun t _ => t + 1)
      0 5 0).2.2.1 (by decide),
    (claim3_amended (C := Nat) (fun t => decide (t < 2)) (fun t _ => t + 1)
      0 5 0).2.2.2 (by decide)⟩

/-- C9: the evaluator modes bind their inputs as specified.  In z-mode the
per-point input `p` is the initial iterate and the configured constant `k`
is the fixed second argument of `f`; in c-mode the iterate starts at `k`
and `p` is the fixed second argument; each step applies `z := f(z, c)`.
Concretely: if the escape test holds on the whole orbit
(`applyN (fun t => f t ·) n ·`) below `M`, the evaluator returns 0; if the
orbit first fails the escape test at index `n < M`, it returns `n`. -/
theorem claim9_bindings {C : Type} (esc : C → Bool) (f : C → C → C)
    (k : C) (M : Nat) (p : C) :
    ((∀ n, n < M → esc (applyN (fun t => f t k) n p) = true) →
        ztestfun esc f k M p = 0) ∧
    (∀ n, n < M → esc (applyN (fun t => f t k) n p) = false →
        (∀ m, m < n → esc (applyN (fun t => f t k) m p) = true) →
        ztestfun esc f k M p = n) ∧
    ((∀ n, n < M → esc (applyN (fun t => f t p) n k) = true) →
        ctestfun esc f k M p = 0) ∧
    (∀ n, n < M → esc (applyN (fun t => f t p) n k) = false →
        (∀ m, m < n → esc (applyN (fun t => f t p) m k) = true) →
        ctestfun esc f k M p = n) := by
  refine ⟨?_, ?_, ?_, ?_⟩
  · intro hall
    show (if loopAux esc (fun t => f t k) M 0 p = M then 0
      else loopAux esc (fun t => f t k) M 0 p) = 0
    rw [loopAux_all esc _ M 0 p hall]
    simp
  · intro n hn hesc hall
    show (if loopAux esc (fun t => f t k) M 0 p = M then 0
      else loopAux esc (fun t => f t k) M 0 p) = n
    rw [loopAux_escape esc _ n M 0 p hn hesc hall]
    simp only [Nat.zero_add]
    rw [if_neg (by omega)]
  · intro hall
    show (if loopAux esc (fun t => f t p) M 0 k = M then 0
      else loopAux esc (fun t => f t p) M 0 k) = 0
    rw [loopAux_all esc _ M 0 k hall]
    simp
  · intro n hn hesc hall
    show (if loopAux esc (fun t => f t p) M 0 k = M then 0
      else loopAux esc (fun t => f t p) M 0 k) = n
    rw [loopAux_escape esc _ n M 0 k hn hesc hall]
    simp only [Nat.zero_add]
    rw [if_neg (by omega)]

/-- Witness for `claim9_bindings`: a z-mode orbit on `Nat` escaping at
index 2 yields iteration count 2. -/
theorem claim9_witness :
    ((2 : Nat) < 5 ∧
      (fun t : Nat => decide (t < 2))
        (applyN (fun t => (fun t _ : Nat => t + 1) t 0) 2 0) = false) ∧
    ztestfun (C := Nat) (fun t => decide (t < 2)) (fun t _ => t + 1)
      0 5 0 = 2 :=
  ⟨⟨by decide, by decide⟩,
    (claim9_bindings (C := Nat) (fun t => decide (t < 2))
      (fun t _ => t + 1) 0 5 0).2.1 2 (by decide) (by decide)
      (fun m hm => by interval_cases m <;> decide)⟩

/-! ## Theorems: spline interval search -/

/-- Invariant of the recursive bisection: starting from a range
`[s, e) ⊆ [0, len)` whose left end is 0 or has knot `≤ x` and whose right
end is `len` or has knot `> x`, for `x` strictly between the outer knots
the returned index is strictly between 0 and `len`. -/
theorem get_element_position_bounds (xs : List ℚ) (x : ℚ)
    (hx0 : xs.getD 0 0 < x) (hxl : x < xs.getD (xs.length - 1) 0) :
    ∀ fuel s e, s < e → e ≤ xs.length → e - s ≤ fuel →
      (s = 0 ∨ xs.getD s 0 ≤ x) →
      (e = xs.length ∨ x < xs.getD e 0) →
      0 < get_element_position xs x fuel s e ∧
        get_element_position xs x fuel s e < xs.length := by
  intro fuel
  induction fuel with
  | zero => intro s e hse _ hf _ _; omega
  | succ fuel ih =>
    intro s e hse hel hf hleft hright
    simp only [get_element_position, if_neg (by omega : ¬ e = s)]
    by_cases h1 : e - s = 1
    · rw [if_pos h1]
      split_ifs with hgt
    /- returns `s` -/
      · rcases hleft with rfl | hle
        · exact absurd hgt (by exact not_lt.mpr (le_of_lt hx0))
        · exact absurd hgt (not_lt.mpr hle)
      · push_neg at hgt
        refine ⟨by omega, ?_⟩
        by_cases he : e = xs.length
        · exfalso
          have hs : s = xs.length - 1 := by omega
          rw [hs] at hgt
          exact absurd hxl (not_lt.mpr hgt)
        · omega
    · rw [if_neg h1]
      set middle := s + (e - s) / 2 with hmid
      have hm1 : s < middle := by omega
      have hm2 : middle < e := by omega
      split_ifs with hgt
      · exact ih s middle hm1 (by omega) (by omega) hleft (Or.inr hgt)
      · push_neg at hgt
        exact ih middle e hm2 hel (by omega) (Or.inr hgt) hright

/-- C8: for a knot vector with at least two ascending knots and an `x`
strictly between the outermost knots, `get_element_position` (as called by
`Spline::operator()`) returns an index strictly between `begin` and `end`,
so the source's assertion holds and the coefficient index
`it - xs_.begin() - 1` is within the bounds of the coefficient array
(whose size is `xs_.size() - 1`). -/
theorem claim8_safety (xs : List ℚ) (x : ℚ)
    (hsorted : List.Pairwise (· < ·) xs) (hlen : 2 ≤ xs.length)
    (hx0 : xs.getD 0 0 < x) (hxl : x < xs.getD (xs.length - 1) 0) :
    0 < splineFind xs x ∧ splineFind xs x < xs.length ∧
      splineFind xs x - 1 < xs.length - 1 := by
  have h := get_element_position_bounds xs x hx0 hxl xs.length 0 xs.length
    (by omega) (Nat.le_refl _) (by omega) (Or.inl rfl) (Or.inl rfl)
  have h1 : 0 < splineFind xs x := h.1
  have h2 : splineFind xs x < xs.length := h.2
  exact ⟨h1, h2, by omega⟩

/-- Witness for `claim8_safety` at knots `[0, 1, 2]` and `x = 1/2`. -/
theorem claim8_witness :
    (List.Pairwise (· < ·) ([0, 1, 2] : List ℚ) ∧
      2 ≤ ([0, 1, 2] : List ℚ).length ∧
      ([0, 1, 2] : List ℚ).getD 0 0 < (1 : ℚ) / 2 ∧
      (1 : ℚ) / 2 < ([0, 1, 2] : List ℚ).getD (([0, 1, 2] : List ℚ).length - 1) 0) ∧
    (0 < splineFind [0, 1, 2] ((1 : ℚ) / 2) ∧
      splineFind [0, 1, 2] ((1 : ℚ) / 2) < ([0, 1, 2] : List ℚ).length ∧
      splineFind [0, 1, 2] ((1 : ℚ) / 2) - 1 < ([0, 1, 2] : List ℚ).length - 1) :=
  ⟨⟨by norm_num, by norm_num, by norm_num, by norm_num⟩,
    claim8_safety [0, 1, 2] ((1 : ℚ) / 2) (by norm_num) (by norm_num)
      (by norm_num) (by norm_num)⟩

/-! ## Theorems: formula parser -/

theorem peek_cons (c : Char) (r : List Char) :
    PStream.peek ⟨c :: r, false⟩ = some c := rfl

theorem peek_nil : PStream.peek ⟨[], false⟩ = none := rfl

theorem peek_failed (l : List Char) : PStream.peek ⟨l, true⟩ = none := rfl

theorem get_cons (c : Char) (r : List Char) :
    PStream.get ⟨c :: r, false⟩ = (some c, ⟨r, false⟩) := rfl

theorem get_nil : PStream.get ⟨[], false⟩ = (none, ⟨[], true⟩) := rfl

theorem get_failed (l : List Char) :
    PStream.get ⟨l, true⟩ = (none, ⟨l, true⟩) := rfl

/-- C6, refutation of the claim as stated: the identifier `abz` is not
among the eleven function names nor the bare `c`, yet the whole formula
`abz(z)` compiles successfully, resolving `abz` to `abs` — the dispatcher
consumes the third character blindly after seeing `ab`. -/
theorem claim6_counterexample :
    compile ['a', 'b', 'z', '(', 'z', ')'] =
      .ok (FExpr.call functions.ABS FExpr.varZ) ∧
    ['a', 'b', 'z'] ∉
      [['a', 'b', 's'], ['e', 'x', 'p'], ['s', 'i', 'n'], ['c', 'o', 's'],
       ['t', 'a', 'n'], ['a', 's', 'i', 'n'], ['a', 'c', 'o', 's'],
       ['a', 't', 'a', 'n'], ['s', 'q', 'r', 't'], ['r', 'e', 'a', 'l'],
       ['i', 'm', 'a', 'g'], ['c']] :=
  ⟨rfl, by decide⟩

/-- C6 (amended): function-name resolution dispatches on the first one or
two characters only and consumes the remaining characters of the expected
name *blindly*: any identifier starting `ab`, `as`, `ac`, `at`, `e`, `si`,
`s`(non-`i`), `co`, `t`, `r`, `i` resolves to `abs`, `asin`, `acos`,
`atan`, `exp`, `sin`, `sqrt`, `cos`, `tan`, `real`, `imag` respectively
(irrespective of the blindly-consumed characters); a `c` not followed by
`o` is the bare variable; only a first character outside `aesctri`, or an
`a` followed by a character outside `bsct`, raises `ParseException`.  A
resolved function name must still be followed by `(` (`parse_function`
errors otherwise), while the bare `c` is returned directly. -/
theorem claim6_amended :
    (∀ c3 r, get_function_name ⟨'a' :: 'b' :: c3 :: r, false⟩ =
      .ok (functions.ABS, ⟨r, false⟩)) ∧
    (∀ c3 c4 r, get_function_name ⟨'a' :: 's' :: c3 :: c4 :: r, false⟩ =
      .ok (functions.ASIN, ⟨r, false⟩)) ∧
    (∀ c3 c4 r, get_function_name ⟨'a' :: 'c' :: c3 :: c4 :: r, false⟩ =
      .ok (functions.ACOS, ⟨r, false⟩)) ∧
    (∀ c3 c4 r, get_function_name ⟨'a' :: 't' :: c3 :: c4 :: r, false⟩ =
      .ok (functions.ATAN, ⟨r, false⟩)) ∧
    (∀ c2 c3 r, get_function_name ⟨'e' :: c2 :: c3 :: r, false⟩ =
      .ok (functions.EXP, ⟨r, false⟩)) ∧
    (∀ c3 r, get_function_name ⟨'s' :: 'i' :: c3 :: r, false⟩ =
      .ok (functions.SIN, ⟨r, false⟩)) ∧
    (∀ c2 c3 c4 r, c2 ≠ 'i' →
      get_function_name ⟨'s' :: c2 :: c3 :: c4 :: r, false⟩ =
        .ok (functions.SQRT, ⟨r, false⟩)) ∧
    (∀ c3 r, get_function_name ⟨'c' :: 'o' :: c3 :: r, false⟩ =
      .ok (functions.COS, ⟨r, false⟩)) ∧
    (∀ c2 r, c2 ≠ 'o' →
      get_function_name ⟨'c' :: c2 :: r, false⟩ =
        .ok (functions.CONSTANT, ⟨c2 :: r, false⟩)) ∧
    (get_function_name ⟨['c'], false⟩ =
      .ok (functions.CONSTANT, ⟨[], false⟩)) ∧
    (∀ c2 c3 r, get_function_name ⟨'t' :: c2 :: c3 :: r, false⟩ =
      .ok (functions.TAN, ⟨r, false⟩)) ∧
    (∀ c2 c3 c4 r, get_function_name ⟨'r' :: c2 :: c3 :: c4 :: r, false⟩ =
      .ok (functions.REAL, ⟨r, false⟩)) ∧
    (∀ c2 c3 c4 r, get_function_name ⟨'i' :: c2 :: c3 :: c4 :: r, false⟩ =
      .ok (functions.IMAG, ⟨r, false⟩)) ∧
    (∀ c1 r, c1 ∉ ['a', 'e', 's', 'c', 't', 'r', 'i'] →
      get_function_name ⟨c1 :: r, false⟩ = .error ()) ∧
    (∀ c2 r, c2 ∉ ['b', 's', 'c', 't'] →
      get_function_name ⟨'a' :: c2 :: r, false⟩ = .error ()) ∧
    (∀ fuel, parse_function (fuel + 1) ⟨['a', 'b', 's', ' ', 'z'], false⟩ =
      .error ()) ∧
    (∀ fuel, parse_function (fuel + 1) ⟨['c'], false⟩ =
      .ok (FExpr.varC, ⟨[], false⟩)) := by
  refine ⟨fun c3 r => rfl, fun c3 c4 r => rfl, fun c3 c4 r => rfl,
    fun c3 c4 r => rfl, fun c2 c3 r => rfl, fun c3 r => rfl,
    ?_, fun c3 r => rfl, ?_, rfl, fun c2 c3 r => rfl,
    fun c2 c3 c4 r => rfl, fun c2 c3 c4 r => rfl, ?_, ?_,
    fun fuel => rfl, fun fuel => rfl⟩
  · intro c2 c3 c4 r h
    simp [get_function_name, get_cons, h]
  · intro c2 r h
    simp [get_function_name, get_cons, peek_cons, h]
  · intro c1 r h
    simp only [List.mem_cons, List.not_mem_nil, or_false] at h
    push_neg at h
    obtain ⟨ha, he, hs, hc, ht, hr, hi⟩ := h
    simp [get_function_name, get_cons, ha, he, hs, hc, ht, hr, hi]
  · intro c2 r h
    simp only [List.mem_cons, List.not_mem_nil, or_false] at h
    push_neg at h
    obtain ⟨hb, hs, hc, ht⟩ := h
    simp [get_function_name, get_cons, hb, hs, hc, ht]

/-- Witness for `claim6_amended`: `sort` resolves to `sqrt`, and the
identifier `q...` fails. -/
theorem claim6_witness :
    ('o' ≠ 'i' ∧ 'q' ∉ ['a', 'e', 's', 'c', 't', 'r', 'i']) ∧
    get_function_name ⟨['s', 'o', 'r', 't'], false⟩ =
      .ok (functions.SQRT, ⟨[], false⟩) ∧
    get_function_name ⟨['q'], false⟩ = .error () :=
  ⟨⟨by decide, by decide⟩,
    claim6_amended.2.2.2.2.2.2.1 'o' 'r' 't' [] (by decide),
    claim6_amended.2.2.2.2.2.2.2.2.2.2.2.2.2.1 'q' [] (by decide)⟩

/-- C7, refutation of the claim as stated: `1.2.3` contains a numeric
literal with two decimal points, yet compilation succeeds — `stream >> x`
reads the longest valid prefix `1.2` and the parser silently ignores the
trailing `.3`. -/
theorem claim7_counterexample :
    compile ['1', '.', '2', '.', '3'] = .ok (FExpr.num ['1', '.', '2']) ∧
    parserun ['1', '.', '2', '.', '3'] =
      .ok (FExpr.num ['1', '.', '2'], ⟨['.', '3'], false⟩) :=
  ⟨rfl, rfl⟩

theorem takeWhile_append_all (p : Char → Bool) :
    ∀ (a l : List Char), (∀ x ∈ a, p x = true) →
      (a ++ l).takeWhile p = a ++ l.takeWhile p := by
  intro a
  induction a with
  | nil => intro l _; rfl
  | cons x a ih =>
    intro l h
    have hx : p x = true := h x (List.mem_cons_self _ _)
    simp only [List.cons_append, List.takeWhile_cons, hx, if_true]
    rw [ih l (fun y hy => h y (List.mem_cons_of_mem _ hy))]

theorem dropWhile_append_all (p : Char → Bool) :
    ∀ (a l : List Char), (∀ x ∈ a, p x = true) →
      (a ++ l).dropWhile p = l.dropWhile p := by
  intro a
  induction a with
  | nil => intro l _; rfl
  | cons x a ih =>
    intro l h
    have hx : p x = true := h x (List.mem_cons_self _ _)
    simp only [List.cons_append, List.dropWhile_cons, hx, if_true]
    exact ih l (fun y hy => h y (List.mem_cons_of_mem _ hy))

theorem spanDigits_append_dot (a rest : List Char)
    (hda : ∀ x ∈ a, x.isDigit = true) :
    spanDigits (a ++ '.' :: rest) = (a, '.' :: rest) := by
  have hdot : Char.isDigit '.' = false := by decide
  unfold spanDigits
  rw [takeWhile_append_all _ a _ hda, dropWhile_append_all _ a _ hda]
  simp [List.takeWhile_cons, List.dropWhile_cons, hdot]

theorem scanMantissa_two_dots (a b c : List Char)
    (hda : ∀ x ∈ a, x.isDigit = true) (hdb : ∀ x ∈ b, x.isDigit = true) :
    scanMantissa (a ++ '.' :: b ++ '.' :: c) = (a ++ '.' :: b, '.' :: c) := by
  have h1 := spanDigits_append_dot a (b ++ '.' :: c) hda
  have h2 := spanDigits_append_dot b c hdb
  rw [show (a ++ '.' :: b ++ '.' :: c : List Char) =
    a ++ '.' :: (b ++ '.' :: c) from by simp]
  simp [scanMantissa, h1, h2]

theorem scanExponent_dot (c : List Char) :
    scanExponent ('.' :: c) = ([], '.' :: c) := rfl

theorem parse_number_two_dots (a b c : List Char) (ha : a ≠ [])
    (hda : ∀ x ∈ a, x.isDigit = true) (hdb : ∀ x ∈ b, x.isDigit = true) :
    parse_number ⟨a ++ '.' :: b ++ '.' :: c, false⟩ =
      (FExpr.num (a ++ '.' :: b), ⟨'.' :: c, false⟩) := by
  have hany : (a ++ '.' :: b).any Char.isDigit = true := by
    rcases a with _ | ⟨d, a'⟩
    · exact absurd rfl ha
    · simp [hda d (List.mem_cons_self _ _)]
  simp only [parse_number, Bool.false_eq_true, if_false,
    scanMantissa_two_dots a b c hda hdb, hany, if_true, scanExponent_dot]

theorem lvl1_loop_dot (fuel : Nat) (f : FExpr) (c : List Char) :
    parse_lvl1_loop (fuel + 1) f ⟨'.' :: c, false⟩ =
      .ok (f, ⟨'.' :: c, false⟩) := rfl

theorem lvl0_loop_dot (fuel : Nat) (f : FExpr) (c : List Char) :
    parse_lvl0_loop (fuel + 1) f ⟨'.' :: c, false⟩ =
      .ok (f, ⟨'.' :: c, false⟩) := rfl

theorem expr_loop_dot (fuel : Nat) (f : FExpr) (c : List Char) :
    parse_expr_loop (fuel + 1) f ⟨'.' :: c, false⟩ =
      .ok (f, ⟨'.' :: c, false⟩) := rfl

theorem digit_not_ws {d : Char} (h : d.isDigit = true) :
    (d == ' ' || d == '\t') = false := by
  by_cases h1 : d = ' '
  · subst h1; exact absurd h (by decide)
  · by_cases h2 : d = '\t'
    · subst h2; exact absurd h (by decide)
    · simp [h1, h2]

/-- C7 (amended): the expression parser does *not* reject malformed
numeric literals.  For every literal of the shape
`digits.digits.digits...` (two decimal points), `stream >> x` consumes the
longest valid-float prefix `digits.digits`, the remainder `.…` is left in
the stream, and compilation succeeds, yielding the constant read from the
prefix; the trailing characters are silently ignored. -/
theorem claim7_amended (a b c : List Char) (ha : a ≠ [])
    (hda : ∀ x ∈ a, x.isDigit = true)
    (hdb : ∀ x ∈ b, x.isDigit = true) :
    parserun (a ++ '.' :: b ++ '.' :: c) =
      .ok (FExpr.num (a ++ '.' :: b), ⟨'.' :: c, false⟩) ∧
    compile (a ++ '.' :: b ++ '.' :: c) = .ok (FExpr.num (a ++ '.' :: b)) := by
  have key : ∀ k, parse_expr (k + 5) ⟨a ++ '.' :: b ++ '.' :: c, false⟩ =
      .ok (FExpr.num (a ++ '.' :: b), ⟨'.' :: c, false⟩) := by
    intro k
    obtain ⟨d, a', rfl⟩ : ∃ d a', a = d :: a' := by
      rcases a with _ | ⟨d, a'⟩
      · exact absurd rfl ha
      · exact ⟨d, a', rfl⟩
    have hd : d.isDigit = true := hda d (List.mem_cons_self _ _)
    have hplus : d ≠ '+' := fun e => absurd (e ▸ hd) (by decide)
    have hminus : d ≠ '-' := fun e => absurd (e ▸ hd) (by decide)
    have hiu : d ≠ 'I' := fun e => absurd (e ▸ hd) (by decide)
    have hz : d ≠ 'z' := fun e => absurd (e ▸ hd) (by decide)
    have hpar : d ≠ '(' := fun e => absurd (e ▸ hd) (by decide)
    have hski : skip_whitespace ⟨d :: (a' ++ '.' :: b ++ '.' :: c), false⟩ =
        ⟨d :: (a' ++ '.' :: b ++ '.' :: c), false⟩ := by
      simp [skip_whitespace, List.dropWhile_cons, digit_not_ws hd]
    have hnof : parse_number_or_fn (k + 1)
        ⟨d :: (a' ++ '.' :: b ++ '.' :: c), false⟩ =
        .ok (FExpr.num ((d :: a') ++ '.' :: b), ⟨'.' :: c, false⟩) := by
      simp only [parse_number_or_fn, peek_cons]
      rw [if_pos (Or.inl hd)]
      rw [show (⟨d :: (a' ++ '.' :: b ++ '.' :: c), false⟩ : PStream) =
        ⟨(d :: a') ++ '.' :: b ++ '.' :: c, false⟩ from rfl]
      rw [parse_number_two_dots (d :: a') b c (by simp) hda hdb]
    have hfac : parse_factor (k + 2)
        ⟨d :: (a' ++ '.' :: b ++ '.' :: c), false⟩ =
        .ok (FExpr.num ((d :: a') ++ '.' :: b), ⟨'.' :: c, false⟩) := by
      simp only [parse_factor, hski, peek_cons]
      rw [if_neg (by simp [hplus]), if_neg (by simp [hminus]),
        if_neg (by simp [hiu]), if_neg (by simp [hz]),
        if_neg (by simp [hpar])]
      exact hnof
    have hlvl1 : parse_lvl1_term (k + 3)
        ⟨d :: (a' ++ '.' :: b ++ '.' :: c), false⟩ =
        .ok (FExpr.num ((d :: a') ++ '.' :: b), ⟨'.' :: c, false⟩) := by
      simp only [parse_lvl1_term, hfac]
      exact lvl1_loop_dot (k + 1) _ c
    have hlvl0 : parse_lvl0_term (k + 4)
        ⟨d :: (a' ++ '.' :: b ++ '.' :: c), false⟩ =
        .ok (FExpr.num ((d :: a') ++ '.' :: b), ⟨'.' :: c, false⟩) := by
      simp only [parse_lvl0_term, hlvl1]
      exact lvl0_loop_dot (k + 2) _ c
    show parse_expr (k + 5)
        ⟨(d :: a') ++ '.' :: b ++ '.' :: c, false⟩ = _
    rw [show ((d :: a') ++ '.' :: b ++ '.' :: c : List Char) =
      d :: (a' ++ '.' :: b ++ '.' :: c) from rfl]
    simp only [parse_expr, hlvl0]
    exact expr_loop_dot (k + 3) _ c
  obtain ⟨m, hm⟩ : ∃ m, fuelFor (a ++ '.' :: b ++ '.' :: c) = m + 5 :=
    ⟨fuelFor (a ++ '.' :: b ++ '.' :: c) - 5, by unfold fuelFor; omega⟩
  have h1 : parserun (a ++ '.' :: b ++ '.' :: c) =
      .ok (FExpr.num (a ++ '.' :: b), ⟨'.' :: c, false⟩) := by
    unfold parserun
    rw [hm]
    exact key m
  refine ⟨h1, ?_⟩
  unfold compile
  rw [h1]

/-- Witness for `claim7_amended` at the literal `1.2.3`. -/
theorem claim7_witness :
    ((['1'] : List Char) ≠ [] ∧
      (∀ x ∈ (['1'] : List Char), x.isDigit = true) ∧
      (∀ x ∈ (['2'] : List Char), x.isDigit = true)) ∧
    (parserun (['1'] ++ '.' :: ['2'] ++ '.' :: ['3']) =
        .ok (FExpr.num (['1'] ++ '.' :: ['2']), ⟨'.' :: ['3'], false⟩) ∧
      compile (['1'] ++ '.' :: ['2'] ++ '.' :: ['3']) =
        .ok (FExpr.num (['1'] ++ '.' :: ['2']))) :=
  ⟨⟨by decide, by decide, by decide⟩,
    claim7_amended ['1'] ['2'] ['3'] (by decide) (by decide) (by decide)⟩

/-- C10, refutation of the claim as stated: `1` parses as a complete
expression, and the suffix `.5` does not begin with an operator, a digit,
or an identifier character — yet compiling `1.5` yields a different
closure than compiling `1` (the `.` extends the numeric literal).  The
claim's list of extending characters is too small. -/
theorem claim10_counterexample :
    compile ['1'] = .ok (FExpr.num ['1']) ∧
    parserun ['1'] = .ok (FExpr.num ['1'], ⟨[], false⟩) ∧
    compile ['1', '.', '5'] = .ok (FExpr.num ['1', '.', '5']) ∧
    '.' ∉ ['+', '-', '*', '/', '^'] ∧
    Char.isDigit '.' = false ∧ Char.isAlpha '.' = false ∧
    FExpr.num ['1'] ≠ FExpr.num ['1', '.', '5'] :=
  ⟨rfl, rfl, rfl, by decide, by decide, by decide, by decide⟩

theorem gfn_nil : get_function_name ⟨[], false⟩ = .error () := rfl

theorem gfn_failed (l : List Char) :
    get_function_name ⟨l, true⟩ = .error () := rfl

theorem parse_function_nil (fuel : Nat) :
    parse_function fuel ⟨[], false⟩ = .error () := by
  cases fuel with
  | zero => rfl
  | succ fuel => simp [parse_function, gfn_nil]

theorem parse_function_failed (fuel : Nat) (l : List Char) :
    parse_function fuel ⟨l, true⟩ = .error () := by
  cases fuel with
  | zero => rfl
  | succ fuel => simp [parse_function, gfn_failed]

theorem pnof_nil (fuel : Nat) :
    parse_number_or_fn fuel ⟨[], false⟩ = .error () := by
  cases fuel with
  | zero => rfl
  | succ fuel =>
    simp only [parse_number_or_fn, peek_nil]
    exact parse_function_nil fuel

theorem pnof_failed (fuel : Nat) (l : List Char) :
    parse_number_or_fn fuel ⟨l, true⟩ = .error () := by
  cases fuel with
  | zero => rfl
  | succ fuel =>
    simp only [parse_number_or_fn, peek_failed]
    exact parse_function_failed fuel l

theorem skip_ws_nil : skip_whitespace ⟨[], false⟩ = ⟨[], false⟩ := rfl

theorem skip_ws_failed (l : List Char) :
    skip_whitespace ⟨l, true⟩ = ⟨l, true⟩ := rfl

theorem parse_factor_nil (fuel : Nat) :
    parse_factor fuel ⟨[], false⟩ = .error () := by
  cases fuel with
  | zero => rfl
  | succ fuel =>
    simp only [parse_factor, skip_ws_nil, peek_nil]
    simp only [show (none = some '+') = False from by simp, if_false,
      show (none = some '-') = False from by simp,
      show (none = some 'I') = False from by simp,
      show (none = some 'z') = False from by simp,
      show (none = some '(') = False from by simp]
    exact pnof_nil fuel

theorem parse_factor_failed (fuel : Nat) (l : List Char) :
    parse_factor fuel ⟨l, true⟩ = .error () := by
  cases fuel with
  | zero => rfl
  | succ fuel =>
    simp only [parse_factor, skip_ws_failed, peek_failed]
    simp only [show (none = some '+') = False from by simp, if_false,
      show (none = some '-') = False from by simp,
      show (none = some 'I') = False from by simp,
      show (none = some 'z') = False from by simp,
      show (none = some '(') = False from by simp]
    exact pnof_failed fuel l

theorem parse_lvl1_nil (fuel : Nat) :
    parse_lvl1_term fuel ⟨[], false⟩ = .error () := by
  cases fuel with
  | zero => rfl
  | succ fuel => simp [parse_lvl1_term, parse_factor_nil]

theorem parse_lvl1_failed (fuel : Nat) (l : List Char) :
    parse_lvl1_term fuel ⟨l, true⟩ = .error () := by
  cases fuel with
  | zero => rfl
  | succ fuel => simp [parse_lvl1_term, parse_factor_failed]

theorem parse_lvl0_nil (fuel : Nat) :
    parse_lvl0_term fuel ⟨[], false⟩ = .error () := by
  cases fuel with
  | zero => rfl
  | succ fuel => simp [parse_lvl0_term, parse_lvl1_nil]

theorem parse_lvl0_failed (fuel : Nat) (l : List Char) :
    parse_lvl0_term fuel ⟨l, true⟩ = .error () := by
  cases fuel with
  | zero => rfl
  | succ fuel => simp [parse_lvl0_term, parse_lvl1_failed]

theorem parse_expr_nil (fuel : Nat) :
    parse_expr fuel ⟨[], false⟩ = .error () := by
  cases fuel with
  | zero => rfl
  | succ fuel => simp [parse_expr, parse_lvl0_nil]

theorem parse_expr_failed (fuel : Nat) (l : List Char) :
    parse_expr fuel ⟨l, true⟩ = .error () := by
  cases fuel with
  | zero => rfl
  | succ fuel => simp [parse_expr, parse_lvl0_failed]

theorem lvl1_loop_failed (fuel : Nat) (f : FExpr) (l : List Char) :
    parse_lvl1_loop (fuel + 1) f ⟨l, true⟩ = .ok (f, ⟨l, true⟩) := rfl

theorem lvl0_loop_failed (fuel : Nat) (f : FExpr) (l : List Char) :
    parse_lvl0_loop (fuel + 1) f ⟨l, true⟩ = .ok (f, ⟨l, true⟩) := rfl

theorem expr_loop_failed (fuel : Nat) (f : FExpr) (l : List Char) :
    parse_expr_loop (fuel + 1) f ⟨l, true⟩ = .ok (f, ⟨l, true⟩) := rfl

theorem lvl1_loop_nil (fuel : Nat) (f : FExpr) :
    parse_lvl1_loop (fuel + 1) f ⟨[], false⟩ = .ok (f, ⟨[], false⟩) := rfl

theorem lvl0_loop_nil (fuel : Nat) (f : FExpr) :
    parse_lvl0_loop (fuel + 1) f ⟨[], false⟩ = .ok (f, ⟨[], false⟩) := rfl

theorem expr_loop_nil (fuel : Nat) (f : FExpr) :
    parse_expr_loop (fuel + 1) f ⟨[], false⟩ = .ok (f, ⟨[], false⟩) := rfl

/-- Fuel monotonicity: a successful parse stays the same under any larger
fuel bound (the fuel-out branch is never on a successful path). -/
theorem parser_mono : ∀ fuel : Nat,
    (∀ fuel2 σ v, fuel ≤ fuel2 → parse_expr fuel σ = .ok v →
      parse_expr fuel2 σ = .ok v) ∧
    (∀ fuel2 x σ v, fuel ≤ fuel2 → parse_expr_loop fuel x σ = .ok v →
      parse_expr_loop fuel2 x σ = .ok v) ∧
    (∀ fuel2 σ v, fuel ≤ fuel2 → parse_lvl0_term fuel σ = .ok v →
      parse_lvl0_term fuel2 σ = .ok v) ∧
    (∀ fuel2 x σ v, fuel ≤ fuel2 → parse_lvl0_loop fuel x σ = .ok v →
      parse_lvl0_loop fuel2 x σ = .ok v) ∧
    (∀ fuel2 σ v, fuel ≤ fuel2 → parse_lvl1_term fuel σ = .ok v →
      parse_lvl1_term fuel2 σ = .ok v) ∧
    (∀ fuel2 x σ v, fuel ≤ fuel2 → parse_lvl1_loop fuel x σ = .ok v →
      parse_lvl1_loop fuel2 x σ = .ok v) ∧
    (∀ fuel2 σ v, fuel ≤ fuel2 → parse_factor fuel σ = .ok v →
      parse_factor fuel2 σ = .ok v) ∧
    (∀ fuel2 σ v, fuel ≤ fuel2 → parse_number_or_fn fuel σ = .ok v →
      parse_number_or_fn fuel2 σ = .ok v) ∧
    (∀ fuel2 σ v, fuel ≤ fuel2 → parse_function fuel σ = .ok v →
      parse_function fuel2 σ = .ok v) := by
  intro fuel
  induction fuel with
  | zero =>
    refine ⟨?_, ?_, ?_, ?_, ?_, ?_, ?_, ?_, ?_⟩ <;> intros <;>
      exact Except.noConfusion (by assumption)
  | succ fuel ih =>
    obtain ⟨ihe, ihel, ih0, ih0l, ih1, ih1l, ihf, ihn, ihfn⟩ := ih
    refine ⟨?_, ?_, ?_, ?_, ?_, ?_, ?_, ?_, ?_⟩
    · intro fuel2 σ v hle h
      obtain ⟨f2, rfl⟩ : ∃ f2, fuel2 = f2 + 1 := ⟨fuel2 - 1, by omega⟩
      have hf : fuel ≤ f2 := by omega
      simp only [parse_expr] at h ⊢
      cases hl : parse_lvl0_term fuel σ with
      | error e => rw [hl] at h; exact Except.noConfusion h
      | ok fs =>
        obtain ⟨f, s1⟩ := fs
        rw [hl] at h
        rw [ih0 f2 σ (f, s1) hf hl]
        exact ihel f2 f s1 v hf h
    · intro fuel2 x σ v hle h
      obtain ⟨f2, rfl⟩ : ∃ f2, fuel2 = f2 + 1 := ⟨fuel2 - 1, by omega⟩
      have hf : fuel ≤ f2 := by omega
      simp only [parse_expr_loop] at h ⊢
      by_cases h1 : (skip_whitespace σ).peek = some '+'
      · rw [if_pos h1] at h ⊢
        cases hl : parse_lvl0_term fuel ((skip_whitespace σ).get).2 with
        | error e => rw [hl] at h; exact Except.noConfusion h
        | ok gs =>
          obtain ⟨g, s2⟩ := gs
          rw [hl] at h
          rw [ih0 f2 _ (g, s2) hf hl]
          exact ihel f2 (FExpr.add x g) s2 v hf h
      · rw [if_neg h1] at h ⊢
        by_cases h2 : (skip_whitespace σ).peek = some '-'
        · rw [if_pos h2] at h ⊢
          cases hl : parse_lvl0_term fuel ((skip_whitespace σ).get).2 with
          | error e => rw [hl] at h; exact Except.noConfusion h
          | ok gs =>
            obtain ⟨g, s2⟩ := gs
            rw [hl] at h
            rw [ih0 f2 _ (g, s2) hf hl]
            exact ihel f2 (FExpr.sub x g) s2 v hf h
        · rw [if_neg h2] at h ⊢
          exact h
    · intro fuel2 σ v hle h
      obtain ⟨f2, rfl⟩ : ∃ f2, fuel2 = f2 + 1 := ⟨fuel2 - 1, by omega⟩
      have hf : fuel ≤ f2 := by omega
      simp only [parse_lvl0_term] at h ⊢
      cases hl : parse_lvl1_term fuel σ with
      | error e => rw [hl] at h; exact Except.noConfusion h
      | ok fs =>
        obtain ⟨f, s1⟩ := fs
        rw [hl] at h
        rw [ih1 f2 σ (f, s1) hf hl]
        exact ih0l f2 f s1 v hf h
    · intro fuel2 x σ v hle h
      obtain ⟨f2, rfl⟩ : ∃ f2, fuel2 = f2 + 1 := ⟨fuel2 - 1, by omega⟩
      have hf : fuel ≤ f2 := by omega
      simp only [parse_lvl0_loop] at h ⊢
      by_cases h1 : (skip_whitespace σ).peek = some '*'
      · rw [if_pos h1] at h ⊢
        cases hl : parse_lvl1_term fuel ((skip_whitespace σ).get).2 with
        | error e => rw [hl] at h; exact Except.noConfusion h
        | ok gs =>
          obtain ⟨g, s2⟩ := gs
          rw [hl] at h
          rw [ih1 f2 _ (g, s2) hf hl]
          exact ih0l f2 (FExpr.mul x g) s2 v hf h
      · rw [if_neg h1] at h ⊢
        by_cases h2 : (skip_whitespace σ).peek = some '/'
        · rw [if_pos h2] at h ⊢
          cases hl : parse_lvl1_term fuel ((skip_whitespace σ).get).2 with
          | error e => rw [hl] at h; exact Except.noConfusion h
          | ok gs =>
            obtain ⟨g, s2⟩ := gs
            rw [hl] at h
            rw [ih1 f2 _ (g, s2) hf hl]
            exact ih0l f2 (FExpr.div x g) s2 v hf h
        · rw [if_neg h2] at h ⊢
          exact h
    · intro fuel2 σ v hle h
      obtain ⟨f2, rfl⟩ : ∃ f2, fuel2 = f2 + 1 := ⟨fuel2 - 1, by omega⟩
      have hf : fuel ≤ f2 := by omega
      simp only [parse_lvl1_term] at h ⊢
      cases hl : parse_factor fuel σ with
      | error e => rw [hl] at h; exact Except.noConfusion h
      | ok fs =>
        obtain ⟨f, s1⟩ := fs
        rw [hl] at h
        rw [ihf f2 σ (f, s1) hf hl]
        exact ih1l f2 f s1 v hf h
    · intro fuel2 x σ v hle h
      obtain ⟨f2, rfl⟩ : ∃ f2, fuel2 = f2 + 1 := ⟨fuel2 - 1, by omega⟩
      have hf : fuel ≤ f2 := by omega
      simp only [parse_lvl1_loop] at h ⊢
      by_cases h1 : (skip_whitespace σ).peek = some '^'
      · rw [if_pos h1] at h ⊢
        cases hl : parse_factor fuel ((skip_whitespace σ).get).2 with
        | error e => rw [hl] at h; exact Except.noConfusion h
        | ok gs =>
          obtain ⟨g, s2⟩ := gs
          rw [hl] at h
          rw [ihf f2 _ (g, s2) hf hl]
          exact ih1l f2 (FExpr.pow x g) s2 v hf h
      · rw [if_neg h1] at h ⊢
        exact h
    · intro fuel2 σ v hle h
      obtain ⟨f2, rfl⟩ : ∃ f2, fuel2 = f2 + 1 := ⟨fuel2 - 1, by omega⟩
      have hf : fuel ≤ f2 := by omega
      simp only [parse_factor] at h ⊢
      by_cases h1 : (skip_whitespace σ).peek = some '+'
      · rw [if_pos h1] at h ⊢
        exact ihf f2 _ v hf h
      · rw [if_neg h1] at h ⊢
        by_cases h2 : (skip_whitespace σ).peek = some '-'
        · rw [if_pos h2] at h ⊢
          cases hl : parse_factor fuel ((skip_whitespace σ).get).2 with
          | error e => rw [hl] at h; exact Except.noConfusion h
          | ok fs =>
            obtain ⟨f, s1⟩ := fs
            rw [hl] at h
            rw [ihf f2 _ (f, s1) hf hl]
            exact h
        · rw [if_neg h2] at h ⊢
          by_cases h3 : (skip_whitespace σ).peek = some 'I'
          · rw [if_pos h3] at h ⊢; exact h
          · rw [if_neg h3] at h ⊢
            by_cases h4 : (skip_whitespace σ).peek = some 'z'
            · rw [if_pos h4] at h ⊢; exact h
            · rw [if_neg h4] at h ⊢
              by_cases h5 : (skip_whitespace σ).peek = some '('
              · rw [if_pos h5] at h ⊢
                exact ihe f2 _ v hf h
              · rw [if_neg h5] at h ⊢
                exact ihn f2 _ v hf h
    · intro fuel2 σ v hle h
      obtain ⟨f2, rfl⟩ : ∃ f2, fuel2 = f2 + 1 := ⟨fuel2 - 1, by omega⟩
      have hf : fuel ≤ f2 := by omega
      simp only [parse_number_or_fn] at h ⊢
      cases hp : σ.peek with
      | some c =>
        simp only [hp] at h ⊢
        by_cases hc : (c.isDigit ∨ c = '.')
        · rw [if_pos hc] at h ⊢; exact h
        · rw [if_neg hc] at h ⊢
          exact ihfn f2 σ v hf h
      | none =>
        simp only [hp] at h ⊢
        exact ihfn f2 σ v hf h
    · intro fuel2 σ v hle h
      obtain ⟨f2, rfl⟩ : ∃ f2, fuel2 = f2 + 1 := ⟨fuel2 - 1, by omega⟩
      have hf : fuel ≤ f2 := by omega
      simp only [parse_function] at h ⊢
      cases hg : get_function_name σ with
      | error e =>
        rw [hg] at h
        exact Except.noConfusion h
      | ok fs =>
        obtain ⟨fn, s1⟩ := fs
        rw [hg] at h
        have h' : (if fn = functions.CONSTANT then
              Except.ok (FExpr.varC, s1)
            else if (skip_whitespace s1).peek = some '(' then
              match parse_expr fuel ((skip_whitespace s1).get).2 with
              | .error e => .error e
              | .ok (arg, s3) =>
                if (skip_whitespace s3).peek = some ')' then
                  Except.ok (FExpr.call fn arg, ((skip_whitespace s3).get).2)
                else .error ()
            else .error ()) = Except.ok v := h
        show (if fn = functions.CONSTANT then
              Except.ok (FExpr.varC, s1)
            else if (skip_whitespace s1).peek = some '(' then
              match parse_expr f2 ((skip_whitespace s1).get).2 with
              | .error e => .error e
              | .ok (arg, s3) =>
                if (skip_whitespace s3).peek = some ')' then
                  Except.ok (FExpr.call fn arg, ((skip_whitespace s3).get).2)
                else .error ()
            else .error ()) = Except.ok v
        by_cases hfn : fn = functions.CONSTANT
        · rw [if_pos hfn] at h' ⊢; exact h'
        · rw [if_neg hfn] at h' ⊢
          by_cases hp : (skip_whitespace s1).peek = some '('
          · rw [if_pos hp] at h' ⊢
            cases hl : parse_expr fuel ((skip_whitespace s1).get).2 with
            | error e => rw [hl] at h'; exact Except.noConfusion h'
            | ok as =>
              obtain ⟨arg, s3⟩ := as
              rw [hl] at h'
              rw [ihe f2 _ (arg, s3) hf hl]
              exact h'
          · rw [if_neg hp] at h' ⊢
            exact h'

theorem extChar_ne {h c : Char} (he : extChar h = false)
    (hc : extChar c = true) : h ≠ c := by
  intro e
  rw [e, hc] at he
  exact Bool.noConfusion he

theorem extChar_digit {h : Char} (he : extChar h = false) :
    h.isDigit = false := by
  cases hd : h.isDigit
  · rfl
  · exfalso
    have ht : extChar h = true := by simp [extChar, hd]
    rw [he] at ht
    exact Bool.noConfusion ht

theorem skip_ws_ext {u rem : List Char} (t : List Char)
    (h : skip_whitespace ⟨u, false⟩ = ⟨rem, false⟩) (hg : GoodT rem t) :
    skip_whitespace ⟨u ++ t, false⟩ = ⟨rem ++ t, false⟩ := by
  have hrem : u.dropWhile (fun c => c == ' ' || c == '\t') = rem := by
    have h2 := congrArg PStream.rest h
    simpa [skip_whitespace] using h2
  show (⟨(u ++ t).dropWhile (fun c => c == ' ' || c == '\t'), false⟩ :
    PStream) = ⟨rem ++ t, false⟩
  rw [List.dropWhile_append]
  by_cases he : (u.dropWhile (fun c => c == ' ' || c == '\t')).isEmpty
  · rw [if_pos he]
    have hrnil : rem = [] := by
      rw [← hrem]
      exact List.isEmpty_iff.mp he
    subst hrnil
    simp only [List.nil_append]
    cases t with
    | nil => rfl
    | cons x t' =>
      have hx : extChar x = false := hg rfl x rfl
      have h1 : x ≠ ' ' := extChar_ne hx (by decide)
      have h2 : x ≠ '\t' := extChar_ne hx (by decide)
      simp [List.dropWhile_cons, h1, h2]
  · rw [if_neg he, hrem]

theorem gfn_ext {u : List Char} {fn : functions} {rem : List Char}
    (t : List Char)
    (h : get_function_name ⟨u, false⟩ = .ok (fn, ⟨rem, false⟩))
    (hg : GoodT rem t) :
    get_function_name ⟨u ++ t, false⟩ = .ok (fn, ⟨rem ++ t, false⟩) := by
  rcases u with _ | ⟨c1, u1⟩
  · rw [gfn_nil] at h
    exact Except.noConfusion h
  by_cases h1 : c1 = 'a'
  · subst h1
    rcases u1 with _ | ⟨c2, u2⟩
    · rw [show get_function_name ⟨['a'], false⟩ = .error () from rfl] at h
      exact Except.noConfusion h
    by_cases h2 : c2 = 'b'
    · subst h2
      rcases u2 with _ | ⟨c3, u3⟩
      · rw [show get_function_name ⟨['a', 'b'], false⟩ =
          .ok (functions.ABS, ⟨[], true⟩) from rfl] at h
        simp at h
      · rw [show get_function_name ⟨'a' :: 'b' :: c3 :: u3, false⟩ =
          .ok (functions.ABS, ⟨u3, false⟩) from rfl] at h
        simp only [Except.ok.injEq, Prod.mk.injEq, PStream.mk.injEq,
          and_true] at h
        obtain ⟨rfl, rfl⟩ := h
        rfl
    by_cases h3 : c2 = 's'
    · subst h3
      rcases u2 with _ | ⟨c3, _ | ⟨c4, u4⟩⟩
      · rw [show get_function_name ⟨['a', 's'], false⟩ =
          .ok (functions.ASIN, ⟨[], true⟩) from rfl] at h
        simp at h
      · rw [show get_function_name ⟨['a', 's', c3], false⟩ =
          .ok (functions.ASIN, ⟨[], true⟩) from rfl] at h
        simp at h
      · rw [show get_function_name ⟨'a' :: 's' :: c3 :: c4 :: u4, false⟩ =
          .ok (functions.ASIN, ⟨u4, false⟩) from rfl] at h
        simp only [Except.ok.injEq, Prod.mk.injEq, PStream.mk.injEq,
          and_true] at h
        obtain ⟨rfl, rfl⟩ := h
        rfl
    by_cases h4 : c2 = 'c'
    · subst h4
      rcases u2 with _ | ⟨c3, _ | ⟨c4, u4⟩⟩
      · rw [show get_function_name ⟨['a', 'c'], false⟩ =
          .ok (functions.ACOS, ⟨[], true⟩) from rfl] at h
        simp at h
      · rw [show get_function_name ⟨['a', 'c', c3], false⟩ =
          .ok (functions.ACOS, ⟨[], true⟩) from rfl] at h
        simp at h
      · rw [show get_function_name ⟨'a' :: 'c' :: c3 :: c4 :: u4, false⟩ =
          .ok (functions.ACOS, ⟨u4, false⟩) from rfl] at h
        simp only [Except.ok.injEq, Prod.mk.injEq, PStream.mk.injEq,
          and_true] at h
        obtain ⟨rfl, rfl⟩ := h
        rfl
    by_cases h5 : c2 = 't'
    · subst h5
      rcases u2 with _ | ⟨c3, _ | ⟨c4, u4⟩⟩
      · rw [show get_function_name ⟨['a', 't'], false⟩ =
          .ok (functions.ATAN, ⟨[], true⟩) from rfl] at h
        simp at h
      · rw [show get_function_name ⟨['a', 't', c3], false⟩ =
          .ok (functions.ATAN, ⟨[], true⟩) from rfl] at h
        simp at h
      · rw [show get_function_name ⟨'a' :: 't' :: c3 :: c4 :: u4, false⟩ =
          .ok (functions.ATAN, ⟨u4, false⟩) from rfl] at h
        simp only [Except.ok.injEq, Prod.mk.injEq, PStream.mk.injEq,
          and_true] at h
        obtain ⟨rfl, rfl⟩ := h
        rfl
    · simp [get_function_name, get_cons, h2, h3, h4, h5] at h
  by_cases he1 : c1 = 'e'
  · subst he1
    rcases u1 with _ | ⟨c2, _ | ⟨c3, u3⟩⟩
    · rw [show get_function_name ⟨['e'], false⟩ =
        .ok (functions.EXP, ⟨[], true⟩) from rfl] at h
      simp at h
    · rw [show get_function_name ⟨['e', c2], false⟩ =
        .ok (functions.EXP, ⟨[], true⟩) from rfl] at h
      simp at h
    · rw [show get_function_name ⟨'e' :: c2 :: c3 :: u3, false⟩ =
        .ok (functions.EXP, ⟨u3, false⟩) from rfl] at h
      simp only [Except.ok.injEq, Prod.mk.injEq, PStream.mk.injEq,
        and_true] at h
      obtain ⟨rfl, rfl⟩ := h
      rfl
  by_cases hs1 : c1 = 's'
  · subst hs1
    rcases u1 with _ | ⟨c2, u2⟩
    · rw [show get_function_name ⟨['s'], false⟩ =
        .ok (functions.SQRT, ⟨[], true⟩) from rfl] at h
      simp at h
    by_cases h2 : c2 = 'i'
    · subst h2
      rcases u2 with _ | ⟨c3, u3⟩
      · rw [show get_function_name ⟨['s', 'i'], false⟩ =
          .ok (functions.SIN, ⟨[], true⟩) from rfl] at h
        simp at h
      · rw [show get_function_name ⟨'s' :: 'i' :: c3 :: u3, false⟩ =
          .ok (functions.SIN, ⟨u3, false⟩) from rfl] at h
        simp only [Except.ok.injEq, Prod.mk.injEq, PStream.mk.injEq,
          and_true] at h
        obtain ⟨rfl, rfl⟩ := h
        rfl
    · rcases u2 with _ | ⟨c3, _ | ⟨c4, u4⟩⟩
      · have hv : get_function_name ⟨['s', c2], false⟩ =
            .ok (functions.SQRT, ⟨[], true⟩) := by
          simp [get_function_name, get_cons, get_nil, get_failed, h2]
        rw [hv] at h
        simp at h
      · have hv : get_function_name ⟨['s', c2, c3], false⟩ =
            .ok (functions.SQRT, ⟨[], true⟩) := by
          simp [get_function_name, get_cons, get_nil, get_failed, h2]
        rw [hv] at h
        simp at h
      · have hv : get_function_name ⟨'s' :: c2 :: c3 :: c4 :: u4, false⟩ =
            .ok (functions.SQRT, ⟨u4, false⟩) := by
          simp [get_function_name, get_cons, h2]
        rw [hv] at h
        simp only [Except.ok.injEq, Prod.mk.injEq, PStream.mk.injEq,
          and_true] at h
        obtain ⟨rfl, rfl⟩ := h
        simp [get_function_name, get_cons, h2]
  by_cases hc1 : c1 = 'c'
  · subst hc1
    rcases u1 with _ | ⟨c2, u2⟩
    · rw [show get_function_name ⟨['c'], false⟩ =
        .ok (functions.CONSTANT, ⟨[], false⟩) from rfl] at h
      simp only [Except.ok.injEq, Prod.mk.injEq, PStream.mk.injEq,
        and_true] at h
      obtain ⟨rfl, rfl⟩ := h
      have hg' := hg rfl
      simp only [List.nil_append]
      cases t with
      | nil => rfl
      | cons x t' =>
        have hx : extChar x = false := hg' x rfl
        have hxo : x ≠ 'o' := extChar_ne hx (by decide)
        simp [get_function_name, get_cons, peek_cons, hxo]
    by_cases h2 : c2 = 'o'
    · subst h2
      rcases u2 with _ | ⟨c3, u3⟩
      · rw [show get_function_name ⟨['c', 'o'], false⟩ =
          .ok (functions.COS, ⟨[], true⟩) from rfl] at h
        simp at h
      · rw [show get_function_name ⟨'c' :: 'o' :: c3 :: u3, false⟩ =
          .ok (functions.COS, ⟨u3, false⟩) from rfl] at h
        simp only [Except.ok.injEq, Prod.mk.injEq, PStream.mk.injEq,
          and_true] at h
        obtain ⟨rfl, rfl⟩ := h
        rfl
    · have hv : get_function_name ⟨'c' :: c2 :: u2, false⟩ =
          .ok (functions.CONSTANT, ⟨c2 :: u2, false⟩) := by
        simp [get_function_name, get_cons, peek_cons, h2]
      rw [hv] at h
      simp only [Except.ok.injEq, Prod.mk.injEq, PStream.mk.injEq,
        and_true] at h
      obtain ⟨rfl, rfl⟩ := h
      simp [get_function_name, get_cons, peek_cons, h2]
  by_cases ht1 : c1 = 't'
  · subst ht1
    rcases u1 with _ | ⟨c2, _ | ⟨c3, u3⟩⟩
    · rw [show get_function_name ⟨['t'], false⟩ =
        .ok (functions.TAN, ⟨[], true⟩) from rfl] at h
      simp at h
    · rw [show get_function_name ⟨['t', c2], false⟩ =
        .ok (functions.TAN, ⟨[], true⟩) from rfl] at h
      simp at h
    · rw [show get_function_name ⟨'t' :: c2 :: c3 :: u3, false⟩ =
        .ok (functions.TAN, ⟨u3, false⟩) from rfl] at h
      simp only [Except.ok.injEq, Prod.mk.injEq, PStream.mk.injEq,
        and_true] at h
      obtain ⟨rfl, rfl⟩ := h
      rfl
  by_cases hr1 : c1 = 'r'
  · subst hr1
    rcases u1 with _ | ⟨c2, _ | ⟨c3, _ | ⟨c4, u4⟩⟩⟩
    · rw [show get_function_name ⟨['r'], false⟩ =
        .ok (functions.REAL, ⟨[], true⟩) from rfl] at h
      simp at h
    · rw [show get_function_name ⟨['r', c2], false⟩ =
        .ok (functions.REAL, ⟨[], true⟩) from rfl] at h
      simp at h
    · rw [show get_function_name ⟨['r', c2, c3], false⟩ =
        .ok (functions.REAL, ⟨[], true⟩) from rfl] at h
      simp at h
    · rw [show get_function_name ⟨'r' :: c2 :: c3 :: c4 :: u4, false⟩ =
        .ok (functions.REAL, ⟨u4, false⟩) from rfl] at h
      simp only [Except.ok.injEq, Prod.mk.injEq, PStream.mk.injEq,
        and_true] at h
      obtain ⟨rfl, rfl⟩ := h
      rfl
  by_cases hi1 : c1 = 'i'
  · subst hi1
    rcases u1 with _ | ⟨c2, _ | ⟨c3, _ | ⟨c4, u4⟩⟩⟩
    · rw [show get_function_name ⟨['i'], false⟩ =
        .ok (functions.IMAG, ⟨[], true⟩) from rfl] at h
      simp at h
    · rw [show get_function_name ⟨['i', c2], false⟩ =
        .ok (functions.IMAG, ⟨[], true⟩) from rfl] at h
      simp at h
    · rw [show get_function_name ⟨['i', c2, c3], false⟩ =
        .ok (functions.IMAG, ⟨[], true⟩) from rfl] at h
      simp at h
    · rw [show get_function_name ⟨'i' :: c2 :: c3 :: c4 :: u4, false⟩ =
        .ok (functions.IMAG, ⟨u4, false⟩) from rfl] at h
      simp only [Except.ok.injEq, Prod.mk.injEq, PStream.mk.injEq,
        and_true] at h
      obtain ⟨rfl, rfl⟩ := h
      rfl
  · simp [get_function_name, get_cons, h1, he1, hs1, hc1, ht1, hr1, hi1] at h

theorem nondigit_head_span {t : List Char}
    (ht : ∀ x, t.head? = some x → x.isDigit = false) :
    t.takeWhile Char.isDigit = [] ∧ t.dropWhile Char.isDigit = t := by
  cases t with
  | nil => exact ⟨rfl, rfl⟩
  | cons x t' =>
    have hx := ht x rfl
    constructor
    · simp [List.takeWhile_cons, hx]
    · simp [List.dropWhile_cons, hx]

theorem spanDigits_eq {u a r : List Char} (h : spanDigits u = (a, r)) :
    u.takeWhile Char.isDigit = a ∧ u.dropWhile Char.isDigit = r := by
  unfold spanDigits at h
  exact ⟨congrArg Prod.fst h, congrArg Prod.snd h⟩

theorem spanDigits_ext_ne {u a r : List Char} (t : List Char)
    (h : spanDigits u = (a, r)) (hr : r ≠ []) :
    spanDigits (u ++ t) = (a, r ++ t) := by
  obtain ⟨hta, htr⟩ := spanDigits_eq h
  have hlen : ¬ (u.takeWhile Char.isDigit).length = u.length := by
    intro hl
    have hsum := congrArg List.length
      (List.takeWhile_append_dropWhile Char.isDigit u)
    rw [List.length_append] at hsum
    have hz : (u.dropWhile Char.isDigit).length = 0 := by omega
    rw [htr] at hz
    exact hr (List.length_eq_zero.mp hz)
  have hne : ¬ (u.dropWhile Char.isDigit).isEmpty = true := by
    rw [htr]
    cases r with
    | nil => exact absurd rfl hr
    | cons x r' => simp
  unfold spanDigits
  rw [List.takeWhile_append, if_neg hlen, hta,
      List.dropWhile_append, if_neg hne, htr]

theorem spanDigits_ext_nil {u a : List Char} (t : List Char)
    (h : spanDigits u = (a, []))
    (ht : ∀ x, t.head? = some x → x.isDigit = false) :
    spanDigits (u ++ t) = (a, t) := by
  obtain ⟨hta, htr⟩ := spanDigits_eq h
  have hu : u = a := by
    conv_lhs => rw [← List.takeWhile_append_dropWhile Char.isDigit u]
    rw [htr, hta, List.append_nil]
  have hall : (u.takeWhile Char.isDigit).length = u.length := by
    rw [hta, ← hu]
  obtain ⟨h1, h2⟩ := nondigit_head_span ht
  unfold spanDigits
  rw [List.takeWhile_append, if_pos hall, h1,
      List.dropWhile_append, if_pos (by rw [htr]; rfl), h2, hu,
      List.append_nil]

theorem scanMantissa_ext {u m r : List Char} (t : List Char)
    (h : scanMantissa u = (m, r)) (hg : GoodT r t) :
    scanMantissa (u ++ t) = (m, r ++ t) := by
  have hsd : spanDigits u = ((spanDigits u).1, (spanDigits u).2) := rfl
  rcases hr1 : (spanDigits u).2 with _ | ⟨c, r2⟩
  · -- the whole input was digits; the scan stopped at end of input
    rw [hr1] at hsd
    have hm : m = (spanDigits u).1 ∧ r = [] := by
      unfold scanMantissa at h
      rw [hsd] at h
      simp only at h
      exact ⟨(congrArg Prod.fst h).symm, (congrArg Prod.snd h).symm⟩
    obtain ⟨rfl, rfl⟩ := hm
    have hth : ∀ x, t.head? = some x → x.isDigit = false := by
      intro x hx
      exact extChar_digit (hg rfl x hx)
    have hsp := spanDigits_ext_nil t hsd hth
    unfold scanMantissa
    rw [hsp]
    simp only [List.nil_append]
    cases ht : t with
    | nil => rfl
    | cons x t' =>
      have hx : extChar x = false := by
        apply hg rfl x
        rw [ht]
        rfl
      have hdot : x ≠ '.' := extChar_ne hx (by decide)
      simp [hdot]
  · rw [hr1] at hsd
    by_cases hc : c = '.'
    · subst hc
      rcases hq : spanDigits r2 with ⟨q1, q2⟩
      rcases hq2 : q2 with _ | ⟨y, q2'⟩
      · -- fraction digits ran to end of input
        subst hq2
        have hm : m = (spanDigits u).1 ++ '.' :: q1 ∧ r = [] := by
          unfold scanMantissa at h
          rw [hsd] at h
          simp only [if_pos rfl, hq] at h
          exact ⟨(congrArg Prod.fst h).symm, (congrArg Prod.snd h).symm⟩
        obtain ⟨rfl, rfl⟩ := hm
        have hth : ∀ x, t.head? = some x → x.isDigit = false := by
          intro x hx
          exact extChar_digit (hg rfl x hx)
        have hsp := spanDigits_ext_ne t hsd (by simp)
        unfold scanMantissa
        rw [hsp]
        simp only [List.cons_append, if_pos rfl]
        rw [spanDigits_ext_nil t hq hth]
        simp
      · -- the scan stopped strictly inside the input
        subst hq2
        have hm : m = (spanDigits u).1 ++ '.' :: q1 ∧ r = y :: q2' := by
          unfold scanMantissa at h
          rw [hsd] at h
          simp only [if_pos rfl, hq] at h
          exact ⟨(congrArg Prod.fst h).symm, (congrArg Prod.snd h).symm⟩
        obtain ⟨rfl, rfl⟩ := hm
        have hsp := spanDigits_ext_ne t hsd (by simp)
        unfold scanMantissa
        rw [hsp]
        simp only [List.cons_append, if_pos rfl]
        rw [spanDigits_ext_ne t hq (by simp)]
        simp
    · -- stopped at a non-dot character inside the input
      have hm : m = (spanDigits u).1 ∧ r = c :: r2 := by
        unfold scanMantissa at h
        rw [hsd] at h
        simp only [if_neg hc] at h
        exact ⟨(congrArg Prod.fst h).symm, (congrArg Prod.snd h).symm⟩
      obtain ⟨rfl, rfl⟩ := hm
      have hsp := spanDigits_ext_ne t hsd (by simp)
      unfold scanMantissa
      rw [hsp]
      simp only [List.cons_append, if_neg hc]

theorem scanExponent_ext {u e r : List Char} (t : List Char)
    (h : scanExponent u = (e, r)) (hg : GoodT r t) :
    scanExponent (u ++ t) = (e, r ++ t) := by
  rcases u with _ | ⟨c, r0⟩
  · have he : e = [] ∧ r = [] := by
      unfold scanExponent at h
      exact ⟨(congrArg Prod.fst h).symm, (congrArg Prod.snd h).symm⟩
    obtain ⟨rfl, rfl⟩ := he
    simp only [List.nil_append]
    cases ht : t with
    | nil => rfl
    | cons x t' =>
      have hx : extChar x = false := by
        apply hg rfl x
        rw [ht]
        rfl
      have hxe : x ≠ 'e' := extChar_ne hx (by decide)
      have hxE : x ≠ 'E' := extChar_ne hx (by decide)
      simp [scanExponent, hxe, hxE]
  · by_cases hce : c = 'e' ∨ c = 'E'
    · rcases r0 with _ | ⟨s, r2⟩
      · have he : e = [c] ∧ r = [] := by
          simp only [scanExponent, if_pos hce] at h
          exact ⟨(congrArg Prod.fst h).symm, (congrArg Prod.snd h).symm⟩
        obtain ⟨rfl, rfl⟩ := he
        simp only [List.nil_append, List.cons_append]
        cases ht : t with
        | nil => simp [scanExponent, if_pos hce]
        | cons x t' =>
          have hx : extChar x = false := by
            apply hg rfl x
            rw [ht]
            rfl
          have hxp : x ≠ '+' := extChar_ne hx (by decide)
          have hxm : x ≠ '-' := extChar_ne hx (by decide)
          have hxd : x.isDigit = false := extChar_digit hx
          simp only [scanExponent, if_pos hce, if_neg (by simp [hxp, hxm] :
            ¬ (x = '+' ∨ x = '-'))]
          have hsp : spanDigits (x :: t') = ([], x :: t') := by
            unfold spanDigits
            simp [List.takeWhile_cons, List.dropWhile_cons, hxd]
          rw [hsp]
      · by_cases hs : s = '+' ∨ s = '-'
        · rcases hq : spanDigits r2 with ⟨q1, q2⟩
          have he : e = c :: s :: q1 ∧ r = q2 := by
            simp only [scanExponent, if_pos hce, if_pos hs, hq] at h
            exact ⟨(congrArg Prod.fst h).symm, (congrArg Prod.snd h).symm⟩
          obtain ⟨rfl, rfl⟩ := he
          simp only [List.cons_append]
          rcases hq2 : r with _ | ⟨y, q2'⟩
          · subst hq2
            have hth : ∀ x, t.head? = some x → x.isDigit = false := by
              intro x hx
              exact extChar_digit (hg rfl x hx)
            simp only [scanExponent, if_pos hce, if_pos hs,
              spanDigits_ext_nil t hq hth]
            simp
          · subst hq2
            simp only [scanExponent, if_pos hce, if_pos hs,
              spanDigits_ext_ne t hq (by simp)]
        · rcases hq : spanDigits (s :: r2) with ⟨q1, q2⟩
          have he : e = c :: q1 ∧ r = q2 := by
            simp only [scanExponent, if_pos hce, if_neg hs, hq] at h
            exact ⟨(congrArg Prod.fst h).symm, (congrArg Prod.snd h).symm⟩
          obtain ⟨rfl, rfl⟩ := he
          simp only [List.cons_append]
          rcases hq2 : r with _ | ⟨y, q2'⟩
          · subst hq2
            have hth : ∀ x, t.head? = some x → x.isDigit = false := by
              intro x hx
              exact extChar_digit (hg rfl x hx)
            have hsp := spanDigits_ext_nil t hq hth
            rw [show ((s :: r2) ++ t : List Char) = s :: (r2 ++ t) from rfl]
              at hsp
            simp only [scanExponent, if_pos hce, if_neg hs, hsp]
            simp
          · subst hq2
            have hsp := spanDigits_ext_ne t hq (by simp)
            rw [show ((s :: r2) ++ t : List Char) = s :: (r2 ++ t) from rfl]
              at hsp
            simp only [scanExponent, if_pos hce, if_neg hs, hsp]
    · have he : e = [] ∧ r = c :: r0 := by
        simp only [scanExponent, if_neg hce] at h
        exact ⟨(congrArg Prod.fst h).symm, (congrArg Prod.snd h).symm⟩
      obtain ⟨rfl, rfl⟩ := he
      simp only [List.cons_append, scanExponent, if_neg hce]

theorem scanExponent_nil_fst {l e1 r : List Char}
    (h : scanExponent l = (e1, r)) (he : e1 = []) : r = l := by
  subst he
  rcases l with _ | ⟨c, r0⟩
  · exact (congrArg Prod.snd h).symm
  · by_cases hce : c = 'e' ∨ c = 'E'
    · exfalso
      rcases r0 with _ | ⟨s, r2⟩
      · simp [scanExponent, if_pos hce] at h
      · by_cases hs : s = '+' ∨ s = '-'
        · simp [scanExponent, if_pos hce, if_pos hs] at h
        · simp [scanExponent, if_pos hce, if_neg hs] at h
    · simp only [scanExponent, if_neg hce] at h
      exact (congrArg Prod.snd h).symm

theorem parse_number_ext {u : List Char} {ex : FExpr} {rem : List Char}
    (t : List Char)
    (h : parse_number ⟨u, false⟩ = (ex, ⟨rem, false⟩)) (hg : GoodT rem t) :
    parse_number ⟨u ++ t, false⟩ = (ex, ⟨rem ++ t, false⟩) := by
  rcases hm : scanMantissa u with ⟨m1, m2⟩
  have hpn : parse_number ⟨u, false⟩ =
      (if m1.any Char.isDigit then
        match (scanExponent m2).1 with
        | [] => (FExpr.num m1, (⟨m2, false⟩ : PStream))
        | _ =>
          if (scanExponent m2).1.any Char.isDigit then
            (FExpr.num (m1 ++ (scanExponent m2).1),
              (⟨(scanExponent m2).2, false⟩ : PStream))
          else (FExpr.numFail, (⟨(scanExponent m2).2, true⟩ : PStream))
      else (FExpr.numFail, (⟨m2, true⟩ : PStream))) := by
    simp only [parse_number, Bool.false_eq_true, if_false, hm]
  rw [hpn] at h
  by_cases hany : m1.any Char.isDigit
  · rw [if_pos hany] at h
    rcases he : scanExponent m2 with ⟨e1, e2⟩
    rcases he1 : e1 with _ | ⟨x, e1'⟩
    · subst he1
      rw [he] at h
      have h' : (FExpr.num m1, (⟨m2, false⟩ : PStream)) =
          (ex, ⟨rem, false⟩) := h
      have hfst : FExpr.num m1 = ex := congrArg Prod.fst h'
      have hsnd : m2 = rem := congrArg (fun p => (Prod.snd p).rest) h'
      subst hfst
      subst hsnd
      have he2 : e2 = m2 := scanExponent_nil_fst he rfl
      have hsc : scanExponent m2 = ([], m2) := by rw [he, he2]
      have hmx := scanMantissa_ext t hm hg
      have hex := scanExponent_ext t hsc hg
      show parse_number ⟨u ++ t, false⟩ = (FExpr.num m1, ⟨m2 ++ t, false⟩)
      simp only [parse_number, Bool.false_eq_true, if_false, hmx, hany,
        if_true, hex]
    · subst he1
      rw [he] at h
      by_cases hde : (x :: e1').any Char.isDigit
      · have h' : (FExpr.num (m1 ++ x :: e1'), (⟨e2, false⟩ : PStream)) =
            (ex, ⟨rem, false⟩) := by
          rw [← h]
          simp [hde]
        have hfst : FExpr.num (m1 ++ x :: e1') = ex := congrArg Prod.fst h'
        have hsnd : e2 = rem := congrArg (fun p => (Prod.snd p).rest) h'
        subst hfst
        subst hsnd
        have hm2ne : m2 ≠ [] := by
          intro hnil
          rw [hnil] at he
          have : ([] : List Char) = x :: e1' :=
            congrArg Prod.fst he
          exact List.noConfusion this
        have hmx := scanMantissa_ext t hm (fun hnil => absurd hnil hm2ne)
        have hex := scanExponent_ext t he hg
        show parse_number ⟨u ++ t, false⟩ =
          (FExpr.num (m1 ++ x :: e1'), ⟨e2 ++ t, false⟩)
        simp only [parse_number, Bool.false_eq_true, if_false, hmx, hany,
          if_true, hex]
        simp [hde]
      · exfalso
        have h' : (FExpr.numFail, (⟨e2, true⟩ : PStream)) =
            (ex, ⟨rem, false⟩) := by
          rw [← h]
          simp [hde]
        have h2 : true = false := congrArg (fun p => (Prod.snd p).failed) h'
        exact Bool.noConfusion h2
  · rw [if_neg hany] at h
    exfalso
    have h2 : true = false := congrArg (fun p => (Prod.snd p).failed) h
    exact Bool.noConfusion h2

/-- On input exhausted before the loop, the loop leaves the stream empty:
the remaining input of a successful run from `⟨[], false⟩` is `[]`. -/
theorem expr_loop_rem_nil {fuel : Nat} {f r : FExpr} {rem : List Char}
    (h : parse_expr_loop fuel f ⟨[], false⟩ = .ok (r, ⟨rem, false⟩)) :
    rem = [] := by
  cases fuel with
  | zero => exact Except.noConfusion h
  | succ k =>
    rw [expr_loop_nil k f] at h
    simp only [Except.ok.injEq, Prod.mk.injEq, PStream.mk.injEq,
      eq_self_iff_true, and_true] at h
    exact h.2.symm

theorem lvl0_loop_rem_nil {fuel : Nat} {f r : FExpr} {rem : List Char}
    (h : parse_lvl0_loop fuel f ⟨[], false⟩ = .ok (r, ⟨rem, false⟩)) :
    rem = [] := by
  cases fuel with
  | zero => exact Except.noConfusion h
  | succ k =>
    rw [lvl0_loop_nil k f] at h
    simp only [Except.ok.injEq, Prod.mk.injEq, PStream.mk.injEq,
      eq_self_iff_true, and_true] at h
    exact h.2.symm

theorem lvl1_loop_rem_nil {fuel : Nat} {f r : FExpr} {rem : List Char}
    (h : parse_lvl1_loop fuel f ⟨[], false⟩ = .ok (r, ⟨rem, false⟩)) :
    rem = [] := by
  cases fuel with
  | zero => exact Except.noConfusion h
  | succ k =>
    rw [lvl1_loop_nil k f] at h
    simp only [Except.ok.injEq, Prod.mk.injEq, PStream.mk.injEq,
      eq_self_iff_true, and_true] at h
    exact h.2.symm

/-- A loop started on a failed stream returns that failed stream; it can
never produce a non-failed final stream. -/
theorem expr_loop_no_unfail {fuel : Nat} {f r : FExpr} {l rem : List Char}
    (h : parse_expr_loop fuel f ⟨l, true⟩ = .ok (r, ⟨rem, false⟩)) :
    False := by
  cases fuel with
  | zero => exact Except.noConfusion h
  | succ k =>
    rw [expr_loop_failed k f l] at h
    simp at h

theorem lvl0_loop_no_unfail {fuel : Nat} {f r : FExpr} {l rem : List Char}
    (h : parse_lvl0_loop fuel f ⟨l, true⟩ = .ok (r, ⟨rem, false⟩)) :
    False := by
  cases fuel with
  | zero => exact Except.noConfusion h
  | succ k =>
    rw [lvl0_loop_failed k f l] at h
    simp at h

theorem lvl1_loop_no_unfail {fuel : Nat} {f r : FExpr} {l rem : List Char}
    (h : parse_lvl1_loop fuel f ⟨l, true⟩ = .ok (r, ⟨rem, false⟩)) :
    False := by
  cases fuel with
  | zero => exact Except.noConfusion h
  | succ k =>
    rw [lvl1_loop_failed k f l] at h
    simp at h

/-- Input extension: a successful parse of `u` from a clean stream ending
in a clean stream with remainder `rem` is unchanged when a suffix `t` is
appended to the input, provided `t` cannot extend the parse in case the
whole input was consumed (`GoodT rem t`); the suffix simply survives into
the final remainder. -/
theorem parser_ext : ∀ fuel : Nat,
    (∀ u r rem t, parse_expr fuel ⟨u, false⟩ = .ok (r, ⟨rem, false⟩) →
      GoodT rem t →
      parse_expr fuel ⟨u ++ t, false⟩ = .ok (r, ⟨rem ++ t, false⟩)) ∧
    (∀ x u r rem t,
      parse_expr_loop fuel x ⟨u, false⟩ = .ok (r, ⟨rem, false⟩) →
      GoodT rem t →
      parse_expr_loop fuel x ⟨u ++ t, false⟩ =
        .ok (r, ⟨rem ++ t, false⟩)) ∧
    (∀ u r rem t, parse_lvl0_term fuel ⟨u, false⟩ = .ok (r, ⟨rem, false⟩) →
      GoodT rem t →
      parse_lvl0_term fuel ⟨u ++ t, false⟩ = .ok (r, ⟨rem ++ t, false⟩)) ∧
    (∀ x u r rem t,
      parse_lvl0_loop fuel x ⟨u, false⟩ = .ok (r, ⟨rem, false⟩) →
      GoodT rem t →
      parse_lvl0_loop fuel x ⟨u ++ t, false⟩ =
        .ok (r, ⟨rem ++ t, false⟩)) ∧
    (∀ u r rem t, parse_lvl1_term fuel ⟨u, false⟩ = .ok (r, ⟨rem, false⟩) →
      GoodT rem t →
      parse_lvl1_term fuel ⟨u ++ t, false⟩ = .ok (r, ⟨rem ++ t, false⟩)) ∧
    (∀ x u r rem t,
      parse_lvl1_loop fuel x ⟨u, false⟩ = .ok (r, ⟨rem, false⟩) →
      GoodT rem t →
      parse_lvl1_loop fuel x ⟨u ++ t, false⟩ =
        .ok (r, ⟨rem ++ t, false⟩)) ∧
    (∀ u r rem t, parse_factor fuel ⟨u, false⟩ = .ok (r, ⟨rem, false⟩) →
      GoodT rem t →
      parse_factor fuel ⟨u ++ t, false⟩ = .ok (r, ⟨rem ++ t, false⟩)) ∧
    (∀ u r rem t,
      parse_number_or_fn fuel ⟨u, false⟩ = .ok (r, ⟨rem, false⟩) →
      GoodT rem t →
      parse_number_or_fn fuel ⟨u ++ t, false⟩ =
        .ok (r, ⟨rem ++ t, false⟩)) ∧
    (∀ u r rem t, parse_function fuel ⟨u, false⟩ = .ok (r, ⟨rem, false⟩) →
      GoodT rem t →
      parse_function fuel ⟨u ++ t, false⟩ =
        .ok (r, ⟨rem ++ t, false⟩)) := by
  intro fuel
  induction fuel with
  | zero =>
    exact ⟨fun u r rem t h hg => Except.noConfusion h,
           fun x u r rem t h hg => Except.noConfusion h,
           fun u r rem t h hg => Except.noConfusion h,
           fun x u r rem t h hg => Except.noConfusion h,
           fun u r rem t h hg => Except.noConfusion h,
           fun x u r rem t h hg => Except.noConfusion h,
           fun u r rem t h hg => Except.noConfusion h,
           fun u r rem t h hg => Except.noConfusion h,
           fun u r rem t h hg => Except.noConfusion h⟩
  | succ fuel ih =>
    obtain ⟨ihe, ihel, ih0, ih0l, ih1, ih1l, ihf, ihn, ihfn⟩ := ih
    refine ⟨?_, ?_, ?_, ?_, ?_, ?_, ?_, ?_, ?_⟩
    · -- parse_expr
      intro u r rem t h hg
      simp only [parse_expr] at h ⊢
      cases hl : parse_lvl0_term fuel ⟨u, false⟩ with
      | error e => rw [hl] at h; exact Except.noConfusion h
      | ok fs =>
        obtain ⟨f, s1⟩ := fs
        rw [hl] at h
        obtain ⟨w, b⟩ := s1
        cases b with
        | true =>
          have h2 : parse_expr_loop fuel f ⟨w, true⟩ =
              .ok (r, ⟨rem, false⟩) := h
          exact (expr_loop_no_unfail h2).elim
        | false =>
          have h2 : parse_expr_loop fuel f ⟨w, false⟩ =
              .ok (r, ⟨rem, false⟩) := h
          have hgw : GoodT w t := by
            intro hw
            subst hw
            exact hg (expr_loop_rem_nil h2)
          rw [ih0 u f w t hl hgw]
          exact ihel f w r rem t h2 hg
    · -- parse_expr_loop
      intro x u r rem t h hg
      simp only [parse_expr_loop] at h ⊢
      have hsw : skip_whitespace ⟨u, false⟩ =
          ⟨u.dropWhile (fun c => c == ' ' || c == '\t'), false⟩ := rfl
      rcases hu2 : u.dropWhile (fun c => c == ' ' || c == '\t')
        with _ | ⟨c, u2⟩
      · rw [hu2] at hsw
        rw [hsw] at h
        rw [peek_nil, if_neg (by simp), if_neg (by simp)] at h
        simp only [Except.ok.injEq, Prod.mk.injEq, PStream.mk.injEq,
          eq_self_iff_true, and_true] at h
        obtain ⟨rfl, hrem⟩ := h
        subst hrem
        have hsw2 := skip_ws_ext t hsw hg
        simp only [List.nil_append] at hsw2 ⊢
        rw [hsw2]
        rcases t with _ | ⟨y, t'⟩
        · rw [peek_nil, if_neg (by simp), if_neg (by simp)]
        · have hy : extChar y = false := hg rfl y rfl
          have hyp : y ≠ '+' := extChar_ne hy (by decide)
          have hym : y ≠ '-' := extChar_ne hy (by decide)
          rw [peek_cons, if_neg (by simp [hyp]), if_neg (by simp [hym])]
      · rw [hu2] at hsw
        rw [hsw] at h
        rw [peek_cons] at h
        have hsw2 := skip_ws_ext t hsw
          (fun hnil => absurd hnil (by simp))
        rw [hsw2, List.cons_append, peek_cons]
        by_cases hc1 : c = '+'
        · rw [if_pos (by rw [hc1])] at h
          rw [if_pos (by rw [hc1])]
          rw [show ((⟨c :: u2, false⟩ : PStream).get).2 =
            (⟨u2, false⟩ : PStream) from rfl] at h
          rw [show ((⟨c :: (u2 ++ t), false⟩ : PStream).get).2 =
            (⟨u2 ++ t, false⟩ : PStream) from rfl]
          cases hl : parse_lvl0_term fuel ⟨u2, false⟩ with
          | error e => rw [hl] at h; exact Except.noConfusion h
          | ok gs =>
            obtain ⟨g, s2⟩ := gs
            rw [hl] at h
            obtain ⟨w, b⟩ := s2
            cases b with
            | true =>
              have h2 : parse_expr_loop fuel (FExpr.add x g) ⟨w, true⟩ =
                  .ok (r, ⟨rem, false⟩) := h
              exact (expr_loop_no_unfail h2).elim
            | false =>
              have h2 : parse_expr_loop fuel (FExpr.add x g) ⟨w, false⟩ =
                  .ok (r, ⟨rem, false⟩) := h
              have hgw : GoodT w t := by
                intro hw
                subst hw
                exact hg (expr_loop_rem_nil h2)
              rw [ih0 u2 g w t hl hgw]
              exact ihel (FExpr.add x g) w r rem t h2 hg
        · rw [if_neg (by simp [hc1])] at h
          rw [if_neg (by simp [hc1])]
          by_cases hc2 : c = '-'
          · rw [if_pos (by rw [hc2])] at h
            rw [if_pos (by rw [hc2])]
            rw [show ((⟨c :: u2, false⟩ : PStream).get).2 =
              (⟨u2, false⟩ : PStream) from rfl] at h
            rw [show ((⟨c :: (u2 ++ t), false⟩ : PStream).get).2 =
              (⟨u2 ++ t, false⟩ : PStream) from rfl]
            cases hl : parse_lvl0_term fuel ⟨u2, false⟩ with
            | error e => rw [hl] at h; exact Except.noConfusion h
            | ok gs =>
              obtain ⟨g, s2⟩ := gs
              rw [hl] at h
              obtain ⟨w, b⟩ := s2
              cases b with
              | true =>
                have h2 : parse_expr_loop fuel (FExpr.sub x g) ⟨w, true⟩ =
                    .ok (r, ⟨rem, false⟩) := h
                exact (expr_loop_no_unfail h2).elim
              | false =>
                have h2 : parse_expr_loop fuel (FExpr.sub x g)
                    ⟨w, false⟩ = .ok (r, ⟨rem, false⟩) := h
                have hgw : GoodT w t := by
                  intro hw
                  subst hw
                  exact hg (expr_loop_rem_nil h2)
                rw [ih0 u2 g w t hl hgw]
                exact ihel (FExpr.sub x g) w r rem t h2 hg
          · rw [if_neg (by simp [hc2])] at h
            rw [if_neg (by simp [hc2])]
            simp only [Except.ok.injEq, Prod.mk.injEq, PStream.mk.injEq,
              eq_self_iff_true, and_true] at h
            obtain ⟨rfl, hrem⟩ := h
            subst hrem
            rfl
    · -- parse_lvl0_term
      intro u r rem t h hg
      simp only [parse_lvl0_term] at h ⊢
      cases hl : parse_lvl1_term fuel ⟨u, false⟩ with
      | error e => rw [hl] at h; exact Except.noConfusion h
      | ok fs =>
        obtain ⟨f, s1⟩ := fs
        rw [hl] at h
        obtain ⟨w, b⟩ := s1
        cases b with
        | true =>
          have h2 : parse_lvl0_loop fuel f ⟨w, true⟩ =
              .ok (r, ⟨rem, false⟩) := h
          exact (lvl0_loop_no_unfail h2).elim
        | false =>
          have h2 : parse_lvl0_loop fuel f ⟨w, false⟩ =
              .ok (r, ⟨rem, false⟩) := h
          have hgw : GoodT w t := by
            intro hw
            subst hw
            exact hg (lvl0_loop_rem_nil h2)
          rw [ih1 u f w t hl hgw]
          exact ih0l f w r rem t h2 hg
    · -- parse_lvl0_loop
      intro x u r rem t h hg
      simp only [parse_lvl0_loop] at h ⊢
      have hsw : skip_whitespace ⟨u, false⟩ =
          ⟨u.dropWhile (fun c => c == ' ' || c == '\t'), false⟩ := rfl
      rcases hu2 : u.dropWhile (fun c => c == ' ' || c == '\t')
        with _ | ⟨c, u2⟩
      · rw [hu2] at hsw
        rw [hsw] at h
        rw [peek_nil, if_neg (by simp), if_neg (by simp)] at h
        simp only [Except.ok.injEq, Prod.mk.injEq, PStream.mk.injEq,
          eq_self_iff_true, and_true] at h
        obtain ⟨rfl, hrem⟩ := h
        subst hrem
        have hsw2 := skip_ws_ext t hsw hg
        simp only [List.nil_append] at hsw2 ⊢
        rw [hsw2]
        rcases t with _ | ⟨y, t'⟩
        · rw [peek_nil, if_neg (by simp), if_neg (by simp)]
        · have hy : extChar y = false := hg rfl y rfl
          have hyp : y ≠ '*' := extChar_ne hy (by decide)
          have hym : y ≠ '/' := extChar_ne hy (by decide)
          rw [peek_cons, if_neg (by simp [hyp]), if_neg (by simp [hym])]
      · rw [hu2] at hsw
        rw [hsw] at h
        rw [peek_cons] at h
        have hsw2 := skip_ws_ext t hsw
          (fun hnil => absurd hnil (by simp))
        rw [hsw2, List.cons_append, peek_cons]
        by_cases hc1 : c = '*'
        · rw [if_pos (by rw [hc1])] at h
          rw [if_pos (by rw [hc1])]
          rw [show ((⟨c :: u2, false⟩ : PStream).get).2 =
            (⟨u2, false⟩ : PStream) from rfl] at h
          rw [show ((⟨c :: (u2 ++ t), false⟩ : PStream).get).2 =
            (⟨u2 ++ t, false⟩ : PStream) from rfl]
          cases hl : parse_lvl1_term fuel ⟨u2, false⟩ with
          | error e => rw [hl] at h; exact Except.noConfusion h
          | ok gs =>
            obtain ⟨g, s2⟩ := gs
            rw [hl] at h
            obtain ⟨w, b⟩ := s2
            cases b with
            | true =>
              have h2 : parse_lvl0_loop fuel (FExpr.mul x g) ⟨w, true⟩ =
                  .ok (r, ⟨rem, false⟩) := h
              exact (lvl0_loop_no_unfail h2).elim
            | false =>
              have h2 : parse_lvl0_loop fuel (FExpr.mul x g) ⟨w, false⟩ =
                  .ok (r, ⟨rem, false⟩) := h
              have hgw : GoodT w t := by
                intro hw
                subst hw
                exact hg (lvl0_loop_rem_nil h2)
              rw [ih1 u2 g w t hl hgw]
              exact ih0l (FExpr.mul x g) w r rem t h2 hg
        · rw [if_neg (by simp [hc1])] at h
          rw [if_neg (by simp [hc1])]
          by_cases hc2 : c = '/'
          · rw [if_pos (by rw [hc2])] at h
            rw [if_pos (by rw [hc2])]
            rw [show ((⟨c :: u2, false⟩ : PStream).get).2 =
              (⟨u2, false⟩ : PStream) from rfl] at h
            rw [show ((⟨c :: (u2 ++ t), false⟩ : PStream).get).2 =
              (⟨u2 ++ t, false⟩ : PStream) from rfl]
            cases hl : parse_lvl1_term fuel ⟨u2, false⟩ with
            | error e => rw [hl] at h; exact Except.noConfusion h
            | ok gs =>
              obtain ⟨g, s2⟩ := gs
              rw [hl] at h
              obtain ⟨w, b⟩ := s2
              cases b with
              | true =>
                have h2 : parse_lvl0_loop fuel (FExpr.div x g) ⟨w, true⟩ =
                    .ok (r, ⟨rem, false⟩) := h
                exact (lvl0_loop_no_unfail h2).elim
              | false =>
                have h2 : parse_lvl0_loop fuel (FExpr.div x g)
                    ⟨w, false⟩ = .ok (r, ⟨rem, false⟩) := h
                have hgw : GoodT w t := by
                  intro hw
                  subst hw
                  exact hg (lvl0_loop_rem_nil h2)
                rw [ih1 u2 g w t hl hgw]
                exact ih0l (FExpr.div x g) w r rem t h2 hg
          · rw [if_neg (by simp [hc2])] at h
            rw [if_neg (by simp [hc2])]
            simp only [Except.ok.injEq, Prod.mk.injEq, PStream.mk.injEq,
              eq_self_iff_true, and_true] at h
            obtain ⟨rfl, hrem⟩ := h
            subst hrem
            rfl
    · -- parse_lvl1_term
      intro u r rem t h hg
      simp only [parse_lvl1_term] at h ⊢
      cases hl : parse_factor fuel ⟨u, false⟩ with
      | error e => rw [hl] at h; exact Except.noConfusion h
      | ok fs =>
        obtain ⟨f, s1⟩ := fs
        rw [hl] at h
        obtain ⟨w, b⟩ := s1
        cases b with
        | true =>
          have h2 : parse_lvl1_loop fuel f ⟨w, true⟩ =
              .ok (r, ⟨rem, false⟩) := h
          exact (lvl1_loop_no_unfail h2).elim
        | false =>
          have h2 : parse_lvl1_loop fuel f ⟨w, false⟩ =
              .ok (r, ⟨rem, false⟩) := h
          have hgw : GoodT w t := by
            intro hw
            subst hw
            exact hg (lvl1_loop_rem_nil h2)
          rw [ihf u f w t hl hgw]
          exact ih1l f w r rem t h2 hg
    · -- parse_lvl1_loop
      intro x u r rem t h hg
      simp only [parse_lvl1_loop] at h ⊢
      have hsw : skip_whitespace ⟨u, false⟩ =
          ⟨u.dropWhile (fun c => c == ' ' || c == '\t'), false⟩ := rfl
      rcases hu2 : u.dropWhile (fun c => c == ' ' || c == '\t')
        with _ | ⟨c, u2⟩
      · rw [hu2] at hsw
        rw [hsw] at h
        rw [peek_nil, if_neg (by simp)] at h
        simp only [Except.ok.injEq, Prod.mk.injEq, PStream.mk.injEq,
          eq_self_iff_true, and_true] at h
        obtain ⟨rfl, hrem⟩ := h
        subst hrem
        have hsw2 := skip_ws_ext t hsw hg
        simp only [List.nil_append] at hsw2 ⊢
        rw [hsw2]
        rcases t with _ | ⟨y, t'⟩
        · rw [peek_nil, if_neg (by simp)]
        · have hy : extChar y = false := hg rfl y rfl
          have hyc : y ≠ '^' := extChar_ne hy (by decide)
          rw [peek_cons, if_neg (by simp [hyc])]
      · rw [hu2] at hsw
        rw [hsw] at h
        rw [peek_cons] at h
        have hsw2 := skip_ws_ext t hsw
          (fun hnil => absurd hnil (by simp))
        rw [hsw2, List.cons_append, peek_cons]
        by_cases hc1 : c = '^'
        · rw [if_pos (by rw [hc1])] at h
          rw [if_pos (by rw [hc1])]
          rw [show ((⟨c :: u2, false⟩ : PStream).get).2 =
            (⟨u2, false⟩ : PStream) from rfl] at h
          rw [show ((⟨c :: (u2 ++ t), false⟩ : PStream).get).2 =
            (⟨u2 ++ t, false⟩ : PStream) from rfl]
          cases hl : parse_factor fuel ⟨u2, false⟩ with
          | error e => rw [hl] at h; exact Except.noConfusion h
          | ok gs =>
            obtain ⟨g, s2⟩ := gs
            rw [hl] at h
            obtain ⟨w, b⟩ := s2
            cases b with
            | true =>
              have h2 : parse_lvl1_loop fuel (FExpr.pow x g) ⟨w, true⟩ =
                  .ok (r, ⟨rem, false⟩) := h
              exact (lvl1_loop_no_unfail h2).elim
            | false =>
              have h2 : parse_lvl1_loop fuel (FExpr.pow x g) ⟨w, false⟩ =
                  .ok (r, ⟨rem, false⟩) := h
              have hgw : GoodT w t := by
                intro hw
                subst hw
                exact hg (lvl1_loop_rem_nil h2)
              rw [ihf u2 g w t hl hgw]
              exact ih1l (FExpr.pow x g) w r rem t h2 hg
        · rw [if_neg (by simp [hc1])] at h
          rw [if_neg (by simp [hc1])]
          simp only [Except.ok.injEq, Prod.mk.injEq, PStream.mk.injEq,
            eq_self_iff_true, and_true] at h
          obtain ⟨rfl, hrem⟩ := h
          subst hrem
          rfl
    · -- parse_factor
      intro u r rem t h hg
      simp only [parse_factor] at h ⊢
      have hsw : skip_whitespace ⟨u, false⟩ =
          ⟨u.dropWhile (fun c => c == ' ' || c == '\t'), false⟩ := rfl
      rcases hu2 : u.dropWhile (fun c => c == ' ' || c == '\t')
        with _ | ⟨c, u2⟩
      · rw [hu2] at hsw
        rw [hsw] at h
        rw [peek_nil, if_neg (by simp), if_neg (by simp),
          if_neg (by simp), if_neg (by simp), if_neg (by simp),
          pnof_nil fuel] at h
        exact Except.noConfusion h
      · rw [hu2] at hsw
        rw [hsw] at h
        rw [peek_cons] at h
        have hsw2 := skip_ws_ext t hsw
          (fun hnil => absurd hnil (by simp))
        rw [hsw2, List.cons_append, peek_cons]
        by_cases h1 : c = '+'
        · rw [if_pos (by rw [h1])] at h
          rw [if_pos (by rw [h1])]
          rw [show ((⟨c :: u2, false⟩ : PStream).get).2 =
            (⟨u2, false⟩ : PStream) from rfl] at h
          rw [show ((⟨c :: (u2 ++ t), false⟩ : PStream).get).2 =
            (⟨u2 ++ t, false⟩ : PStream) from rfl]
          exact ihf u2 r rem t h hg
        · rw [if_neg (by simp [h1])] at h
          rw [if_neg (by simp [h1])]
          by_cases h2 : c = '-'
          · rw [if_pos (by rw [h2])] at h
            rw [if_pos (by rw [h2])]
            rw [show ((⟨c :: u2, false⟩ : PStream).get).2 =
              (⟨u2, false⟩ : PStream) from rfl] at h
            rw [show ((⟨c :: (u2 ++ t), false⟩ : PStream).get).2 =
              (⟨u2 ++ t, false⟩ : PStream) from rfl]
            cases hl : parse_factor fuel ⟨u2, false⟩ with
            | error e => rw [hl] at h; exact Except.noConfusion h
            | ok fs =>
              obtain ⟨f, s1⟩ := fs
              rw [hl] at h
              have h3 : Except.ok (ε := Unit) (FExpr.neg f, s1) =
                  .ok (r, (⟨rem, false⟩ : PStream)) := h
              simp only [Except.ok.injEq, Prod.mk.injEq] at h3
              obtain ⟨hr, hs⟩ := h3
              subst hs
              rw [ihf u2 f rem t hl hg, ← hr]
          · rw [if_neg (by simp [h2])] at h
            rw [if_neg (by simp [h2])]
            by_cases h3 : c = 'I'
            · rw [if_pos (by rw [h3])] at h
              rw [if_pos (by rw [h3])]
              rw [show ((⟨c :: u2, false⟩ : PStream).get).2 =
                (⟨u2, false⟩ : PStream) from rfl] at h
              rw [show ((⟨c :: (u2 ++ t), false⟩ : PStream).get).2 =
                (⟨u2 ++ t, false⟩ : PStream) from rfl]
              simp only [Except.ok.injEq, Prod.mk.injEq, PStream.mk.injEq,
                eq_self_iff_true, and_true] at h
              obtain ⟨rfl, hrem⟩ := h
              subst hrem
              rfl
            · rw [if_neg (by simp [h3])] at h
              rw [if_neg (by simp [h3])]
              by_cases h4 : c = 'z'
              · rw [if_pos (by rw [h4])] at h
                rw [if_pos (by rw [h4])]
                rw [show ((⟨c :: u2, false⟩ : PStream).get).2 =
                  (⟨u2, false⟩ : PStream) from rfl] at h
                rw [show ((⟨c :: (u2 ++ t), false⟩ : PStream).get).2 =
                  (⟨u2 ++ t, false⟩ : PStream) from rfl]
                simp only [Except.ok.injEq, Prod.mk.injEq,
                  PStream.mk.injEq, eq_self_iff_true, and_true] at h
                obtain ⟨rfl, hrem⟩ := h
                subst hrem
                rfl
              · rw [if_neg (by simp [h4])] at h
                rw [if_neg (by simp [h4])]
                by_cases h5 : c = '('
                · rw [if_pos (by rw [h5])] at h
                  rw [if_pos (by rw [h5])]
                  rw [show ((⟨c :: u2, false⟩ : PStream).get).2 =
                    (⟨u2, false⟩ : PStream) from rfl] at h
                  rw [show ((⟨c :: (u2 ++ t), false⟩ : PStream).get).2 =
                    (⟨u2 ++ t, false⟩ : PStream) from rfl]
                  exact ihe u2 r rem t h hg
                · rw [if_neg (by simp [h5])] at h
                  rw [if_neg (by simp [h5])]
                  exact ihn (c :: u2) r rem t h hg
    · -- parse_number_or_fn
      intro u r rem t h hg
      simp only [parse_number_or_fn] at h ⊢
      rcases u with _ | ⟨c, u0⟩
      · simp only [peek_nil] at h
        rw [parse_function_nil fuel] at h
        exact Except.noConfusion h
      · simp only [peek_cons] at h
        simp only [List.cons_append, peek_cons]
        by_cases hc : (c.isDigit ∨ c = '.')
        · rw [if_pos hc] at h
          rw [if_pos hc]
          have hpn : parse_number ⟨c :: u0, false⟩ = (r, ⟨rem, false⟩) :=
            Except.ok.inj h
          rw [show (c :: (u0 ++ t) : List Char) = (c :: u0) ++ t from rfl,
            parse_number_ext t hpn hg]
        · rw [if_neg hc] at h
          rw [if_neg hc]
          exact ihfn (c :: u0) r rem t h hg
    · -- parse_function
      intro u r rem t h hg
      simp only [parse_function] at h ⊢
      cases hgn : get_function_name ⟨u, false⟩ with
      | error e => rw [hgn] at h; exact Except.noConfusion h
      | ok fs =>
        obtain ⟨fn, s1⟩ := fs
        rw [hgn] at h
        obtain ⟨w, b⟩ := s1
        have h' : (if fn = functions.CONSTANT then
              Except.ok (FExpr.varC, (⟨w, b⟩ : PStream))
            else if (skip_whitespace ⟨w, b⟩).peek = some '(' then
              match parse_expr fuel ((skip_whitespace ⟨w, b⟩).get).2 with
              | .error e => .error e
              | .ok (arg, s3) =>
                if (skip_whitespace s3).peek = some ')' then
                  Except.ok (FExpr.call fn arg,
                    ((skip_whitespace s3).get).2)
                else .error ()
            else .error ()) = Except.ok (r, (⟨rem, false⟩ : PStream)) := h
        cases b with
        | true =>
          by_cases hfn : fn = functions.CONSTANT
          · rw [if_pos hfn] at h'
            simp at h'
          · rw [if_neg hfn, skip_ws_failed, peek_failed,
              if_neg (by simp)] at h'
            exact Except.noConfusion h'
        | false =>
          by_cases hfn : fn = functions.CONSTANT
          · rw [if_pos hfn] at h'
            simp only [Except.ok.injEq, Prod.mk.injEq, PStream.mk.injEq,
              eq_self_iff_true, and_true] at h'
            obtain ⟨hr, hrem⟩ := h'
            subst hrem
            rw [gfn_ext t hgn hg]
            show (if fn = functions.CONSTANT then
                Except.ok (FExpr.varC, (⟨w ++ t, false⟩ : PStream))
              else if (skip_whitespace ⟨w ++ t, false⟩).peek = some '('
                then
                match parse_expr fuel
                    ((skip_whitespace ⟨w ++ t, false⟩).get).2 with
                | .error e => .error e
                | .ok (arg, s3) =>
                  if (skip_whitespace s3).peek = some ')' then
                    Except.ok (FExpr.call fn arg,
                      ((skip_whitespace s3).get).2)
                  else .error ()
              else .error ()) =
              Except.ok (r, (⟨w ++ t, false⟩ : PStream))
            rw [if_pos hfn, ← hr]
          · rw [if_neg hfn] at h'
            have hsw : skip_whitespace ⟨w, false⟩ =
                ⟨w.dropWhile (fun c => c == ' ' || c == '\t'), false⟩ :=
              rfl
            rcases hw2 : w.dropWhile (fun c => c == ' ' || c == '\t')
              with _ | ⟨d, w2⟩
            · rw [hw2] at hsw
              rw [hsw, peek_nil, if_neg (by simp)] at h'
              exact Except.noConfusion h'
            · rw [hw2] at hsw
              rw [hsw, peek_cons] at h'
              by_cases hd : d = '('
              · rw [if_pos (by rw [hd])] at h'
                rw [show ((⟨d :: w2, false⟩ : PStream).get).2 =
                  (⟨w2, false⟩ : PStream) from rfl] at h'
                cases hl : parse_expr fuel ⟨w2, false⟩ with
                | error e => rw [hl] at h'; exact Except.noConfusion h'
                | ok as =>
                  obtain ⟨arg, s3⟩ := as
                  rw [hl] at h'
                  obtain ⟨w3, b3⟩ := s3
                  have h'' : (if (skip_whitespace ⟨w3, b3⟩).peek =
                        some ')' then
                      Except.ok (FExpr.call fn arg,
                        ((skip_whitespace ⟨w3, b3⟩).get).2)
                    else .error ()) =
                    Except.ok (r, (⟨rem, false⟩ : PStream)) := h'
                  cases b3 with
                  | true =>
                    rw [skip_ws_failed, peek_failed,
                      if_neg (by simp)] at h''
                    exact Except.noConfusion h''
                  | false =>
                    have hsw4 : skip_whitespace ⟨w3, false⟩ =
                        ⟨w3.dropWhile (fun c => c == ' ' || c == '\t'),
                          false⟩ := rfl
                    rcases hw4 : w3.dropWhile
                        (fun c => c == ' ' || c == '\t')
                      with _ | ⟨e4, w5⟩
                    · rw [hw4] at hsw4
                      rw [hsw4, peek_nil, if_neg (by simp)] at h''
                      exact Except.noConfusion h''
                    · rw [hw4] at hsw4
                      rw [hsw4, peek_cons] at h''
                      by_cases he4 : e4 = ')'
                      · rw [if_pos (by rw [he4])] at h''
                        rw [show ((⟨e4 :: w5, false⟩ : PStream).get).2 =
                          (⟨w5, false⟩ : PStream) from rfl] at h''
                        simp only [Except.ok.injEq, Prod.mk.injEq,
                          PStream.mk.injEq, eq_self_iff_true,
                          and_true] at h''
                        obtain ⟨hr, hrem⟩ := h''
                        subst hrem
                        have hgw : GoodT w t := by
                          intro hnil
                          subst hnil
                          exact absurd hw2 (by simp)
                        have hgw3 : GoodT w3 t := by
                          intro hnil
                          subst hnil
                          exact absurd hw4 (by simp)
                        rw [gfn_ext t hgn hgw]
                        show (if fn = functions.CONSTANT then
                            Except.ok (FExpr.varC,
                              (⟨w ++ t, false⟩ : PStream))
                          else if (skip_whitespace
                              ⟨w ++ t, false⟩).peek = some '(' then
                            match parse_expr fuel
                                ((skip_whitespace
                                  ⟨w ++ t, false⟩).get).2 with
                            | .error e => .error e
                            | .ok (arg, s3) =>
                              if (skip_whitespace s3).peek = some ')'
                                then
                                Except.ok (FExpr.call fn arg,
                                  ((skip_whitespace s3).get).2)
                              else .error ()
                          else .error ()) =
                          Except.ok (r, (⟨w5 ++ t, false⟩ : PStream))
                        rw [if_neg hfn]
                        have hswe := skip_ws_ext t hsw
                          (fun hnil => absurd hnil (by simp))
                        rw [hswe, List.cons_append, peek_cons,
                          if_pos (by rw [hd])]
                        rw [show ((⟨d :: (w2 ++ t), false⟩ :
                          PStream).get).2 =
                          (⟨w2 ++ t, false⟩ : PStream) from rfl]
                        rw [ihe w2 arg w3 t hl hgw3]
                        show (if (skip_whitespace
                              ⟨w3 ++ t, false⟩).peek = some ')' then
                            Except.ok (FExpr.call fn arg,
                              ((skip_whitespace
                                ⟨w3 ++ t, false⟩).get).2)
                          else .error ()) =
                          Except.ok (r, (⟨w5 ++ t, false⟩ : PStream))
                        have hswf := skip_ws_ext t hsw4
                          (fun hnil => absurd hnil (by simp))
                        rw [hswf, List.cons_append, peek_cons,
                          if_pos (by rw [he4])]
                        rw [show ((⟨e4 :: (w5 ++ t), false⟩ :
                          PStream).get).2 =
                          (⟨w5 ++ t, false⟩ : PStream) from rfl, ← hr]
                      · rw [if_neg (by simp [he4])] at h''
                        exact Except.noConfusion h''
              · rw [if_neg (by simp [hd])] at h'
                exact Except.noConfusion h'

/-- C10, amended: trailing input is tolerated, but the set of characters
that can extend a complete parse is larger than the claim's "operator,
digit, or identifier continuation": it also contains whitespace, `.`, `e`,
`E` (which extend a final numeric literal) and `o` (which turns a final
bare `c` into `cos`).  For every input `s` that parses to `e` consuming
the whole input and every suffix `t` whose first character is none of
these (`headOK`), the parse of `s ++ t` succeeds, yields the same
expression `e`, and leaves exactly `t` unconsumed — `FunctionParser::get`
then discards the leftover, so compilation gives the identical closure. -/
theorem claim10_amended (s t : List Char) (e : FExpr)
    (h : parserun s = .ok (e, ⟨[], false⟩)) (ht : headOK t) :
    parserun (s ++ t) = .ok (e, ⟨t, false⟩) ∧
    compile (s ++ t) = .ok e := by
  have hle : fuelFor s ≤ fuelFor (s ++ t) := by
    simp only [fuelFor, List.length_append]
    omega
  have hmono : parse_expr (fuelFor (s ++ t)) ⟨s, false⟩ =
      .ok (e, ⟨[], false⟩) :=
    (parser_mono (fuelFor s)).1 (fuelFor (s ++ t)) ⟨s, false⟩
      (e, ⟨[], false⟩) hle h
  have hext := (parser_ext (fuelFor (s ++ t))).1 s e [] t hmono
    (fun _ => ht)
  have hrun : parserun (s ++ t) = .ok (e, ⟨t, false⟩) := by
    show parse_expr (fuelFor (s ++ t)) ⟨s ++ t, false⟩ =
      .ok (e, ⟨t, false⟩)
    simpa using hext
  refine ⟨hrun, ?_⟩
  simp only [compile, hrun]

theorem claim10_witness :
    (parserun ['z'] = .ok (FExpr.varZ, ⟨[], false⟩) ∧ headOK [')']) ∧
    parserun (['z'] ++ [')']) = .ok (FExpr.varZ, ⟨[')'], false⟩) ∧
    compile (['z'] ++ [')']) = .ok FExpr.varZ := by
  have hok : headOK [')'] := by
    intro x hx
    injection hx with hx
    subst hx
    decide
  exact ⟨⟨rfl, hok⟩, claim10_amended ['z'] [')'] FExpr.varZ rfl hok⟩

end Fractalmake
